import Mathlib

/-!
# NFractallizer: the escape-time renderer of `src/main.cpp`

A shallow embedding of the program and the properties of its specification.

Numeric model.  `nfloat` (`boost::multiprecision::cpp_dec_float_100`) is embedded as
the exact rationals `ℚ`: every arithmetic operation and comparison is exact, no
rounding to 100 decimal digits is modelled.  The rounding of the decimal library is
outside the model: every statement below is a statement about the formulas that
the source evaluates, read in exact arithmetic.  All the literals of the program
(`2.0`, `1.0/4.0`, `1.0/16.0`, `1.75`, `3.5`, `-0.75`) are exactly representable both
as binary doubles and as decimals.  The `double` arithmetic of `Colorize` works on
integers up to 64 divided by 64 and multiplied by 255, which is exact in binary
floating point, so it is embedded in `ℚ` as well.

Machine integers are natural numbers with an explicit modulus where the program
can wrap: the `uint16_t` loop counters of `MakeFrame` (modulo 65536), the `uint8_t`
colour channel (modulo 256) and the `uint64_t` pixel indices (modulo 2 ^ 64).

The frame size is the pair of macros `FRAME_W`, `FRAME_H`; the functions that use
them take the two values as parameters `W`, `H`, and the program is the instance
`W = FRAME_W`, `H = FRAME_H`.
-/

namespace NFractallizer

/-! ## Data model -/

/-- The type `nfloat` of the source, `typedef cpp_dec_float_100 nfloat`, as exact rationals. -/
abbrev nfloat := ℚ

/-- The type `ncomplex` of the source, `std::complex<nfloat>`. -/
structure ncomplex where
  re : nfloat
  im : nfloat
deriving DecidableEq

/-- Complex addition, `operator+` of `std::complex`. -/
def ncomplex.add (a b : ncomplex) : ncomplex :=
  { re := a.re + b.re, im := a.im + b.im }

/-- Complex multiplication, `operator*` of `std::complex`, by the standard rule. -/
def ncomplex.mul (a b : ncomplex) : ncomplex :=
  { re := a.re * b.re - a.im * b.im, im := a.re * b.im + a.im * b.re }

/-- The macro `FRAME_W`. -/
def FRAME_W : Nat := 640

/-- The macro `FRAME_H`. -/
def FRAME_H : Nat := 360

/-- The macro `MAX_ITERS`. -/
def MAX_ITERS : Nat := 100

/-- The macro `ESCAPE_BOUNDARY`, `static_cast<nfloat>(2.0)`. -/
def ESCAPE_BOUNDARY : nfloat := 2

/-- The macro `QUARTER`, `static_cast<nfloat>(1.0/4.0)`. -/
def QUARTER : nfloat := 1 / 4

/-- The macro `SIXTEENTH`, `static_cast<nfloat>(1.0/16.0)`. -/
def SIXTEENTH : nfloat := 1 / 16

/-- The struct `RGB`: three `uint8_t` channels, each initialised to 0. -/
structure RGB where
  R : Nat := 0
  G : Nat := 0
  B : Nat := 0
deriving DecidableEq

/-- The struct `Vector2`. -/
structure Vector2 where
  X : nfloat := 0
  Y : nfloat := 0
deriving DecidableEq

/-- The struct `Point`: plane coordinates and the colour of the sample. -/
structure Point where
  X : nfloat := 0
  Y : nfloat := 0
  Color : RGB := {}
deriving DecidableEq

/-! ## Colorize -/

/-- The function `Colorize`.  `Bounces` is a `uint64_t`; the clamped count is a
`double` holding an integer in `[0, 64]`, and the result of `std::floor` is
converted to `uint8_t`. -/
def Colorize (_C : ncomplex) (Bounces : Nat) : RGB :=
  let ClampedBounces : ℚ := if Bounces > 64 then 64 else (Bounces : ℚ)
  { R := 0, G := 0, B := (⌊(ClampedBounces / 64) * 255⌋ % 256).toNat }

/-! ## CalculatePoint -/

/-- The escape test of the loop body:
`abs(Z.real()) > ESCAPE_BOUNDARY || abs(Z.imag()) > ESCAPE_BOUNDARY`. -/
def escapes (Z : ncomplex) : Prop :=
  |Z.re| > ESCAPE_BOUNDARY ∨ |Z.im| > ESCAPE_BOUNDARY

instance (Z : ncomplex) : Decidable (escapes Z) := by
  unfold escapes; exact inferInstance

/-- The loop `for (uint64_t Iter = 0; Iter < MAX_ITERS; Iter++)` of `CalculatePoint`,
entered with the current `Z` and `Iter` and with `remaining = MAX_ITERS - Iter`
iterations still allowed by the loop condition: `some Iter` when the `return`
inside the loop is taken at counter value `Iter`, `none` when the loop runs to its
end.  The counter stays below `MAX_ITERS`, so the `uint64_t` never wraps. -/
def iterLoop (C : ncomplex) : (remaining : Nat) → (Z : ncomplex) → (Iter : Nat) → Option Nat
  | 0, _, _ => none
  | remaining + 1, Z, Iter =>
    let Z1 := (Z.mul Z).add C
    if escapes Z1 then some Iter
    else iterLoop C remaining Z1 (Iter + 1)

/-- The fast-path test of `CalculatePoint`: the period-2 bulb disjunct first, then
the cardioid disjunct with `Q = (PX - QUARTER)^2 + PY^2`. -/
def shortcut (PX PY : nfloat) : Prop :=
  let Q : nfloat := ((PX - QUARTER) * (PX - QUARTER)) + (PY * PY)
  ((PX + 1) * (PX + 1) + (PY * PY) ≤ SIXTEENTH) ∨ (Q * (Q + (PX - QUARTER)) ≤ (PY * PY) * QUARTER)

instance (PX PY : nfloat) : Decidable (shortcut PX PY) := by
  unfold shortcut; exact inferInstance

/-- The function `CalculatePoint`. -/
def CalculatePoint (PX PY : nfloat) : Point :=
  let C : ncomplex := { re := PX, im := PY }
  let Z : ncomplex := { re := 0, im := 0 }
  if shortcut PX PY then
    { X := PX, Y := PY, Color := { R := 0, G := 0, B := 0 } }
  else
    match iterLoop C MAX_ITERS Z 0 with
    | some Iter => { X := PX, Y := PY, Color := Colorize C Iter }
    | none => { X := PX, Y := PY, Color := { R := 0, G := 0, B := 0 } }

/-- The outcome of a classification: which `return` of `CalculatePoint` is taken. -/
inductive EscapeResult where
  | Bounded : EscapeResult
  | Escaped (iteration : Nat) : EscapeResult
deriving DecidableEq

/-- The control path of `CalculatePoint`: `Bounded` for the fast-path `return` and for
the `return` after the loop, `Escaped Iter` for the `return` inside the loop. -/
def classify (PX PY : nfloat) : EscapeResult :=
  if shortcut PX PY then EscapeResult.Bounded
  else
    match iterLoop { re := PX, im := PY } MAX_ITERS { re := 0, im := 0 } 0 with
    | some Iter => EscapeResult.Escaped Iter
    | none => EscapeResult.Bounded

/-- The classifier with the fast-path test removed: the loop of `CalculatePoint` alone. -/
def classifyNoShortcut (PX PY : nfloat) : EscapeResult :=
  match iterLoop { re := PX, im := PY } MAX_ITERS { re := 0, im := 0 } 0 with
  | some Iter => EscapeResult.Escaped Iter
  | none => EscapeResult.Bounded

/-- The value of `Z` after `n` executions of `Z = (Z * Z) + C`, starting from `Z = 0`. -/
def orbit (C : ncomplex) : Nat → ncomplex
  | 0 => { re := 0, im := 0 }
  | n + 1 => ((orbit C n).mul (orbit C n)).add C

/-! ## MakeFrame -/

/-- The local `DeltaX` of `MakeFrame`: how much to move on the X axis for each pixel. -/
def DeltaX (W : Nat) (UCorner BCorner : Vector2) : nfloat :=
  (BCorner.X - UCorner.X) / (W : nfloat)

/-- The local `DeltaY` of `MakeFrame`: how much to move on the Y axis for each pixel. -/
def DeltaY (H : Nat) (UCorner BCorner : Vector2) : nfloat :=
  (BCorner.Y - UCorner.Y) / (H : nfloat)

/-- The local `PointX` of the loop body of `MakeFrame`, for the counter value `X`. -/
def PointX (W : Nat) (UCorner BCorner : Vector2) (X : Nat) : nfloat :=
  UCorner.X + (DeltaX W UCorner BCorner * ((X + 0 : Nat) : nfloat))

/-- The local `PointY` of the loop body of `MakeFrame`, for the counter value `Y`. -/
def PointY (H : Nat) (UCorner BCorner : Vector2) (Y : Nat) : nfloat :=
  UCorner.Y + (DeltaY H UCorner BCorner * ((Y + 0 : Nat) : nfloat))

/-- The sampling map of `MakeFrame`, pixel to plane: the pair `(PointX, PointY)` for
the pixel in column `col` and row `row`. -/
def pixelToPlane (W H : Nat) (UCorner BCorner : Vector2) (col row : Nat) : Vector2 :=
  { X := PointX W UCorner BCorner col, Y := PointY H UCorner BCorner row }

/-- The inner loop `for (uint16_t X = 0; X != FRAME_W; X++)` of `MakeFrame`, entered
with counter `X` in row `Y`.  The counter is a `uint16_t`, so `X++` wraps modulo
65536.  `fuel` bounds the number of loop tests; `none` means the fuel ran out. -/
def innerLoop (W H : Nat) (UCorner BCorner : Vector2) (Y : Nat) :
    (fuel : Nat) → (X : Nat) → (PointsList : List Point) → Option (List Point)
  | 0, _, _ => none
  | fuel + 1, X, PointsList =>
    if X ≠ W then
      innerLoop W H UCorner BCorner Y fuel ((X + 1) % 65536)
        (PointsList ++ [CalculatePoint (PointX W UCorner BCorner X) (PointY H UCorner BCorner Y)])
    else some PointsList

/-- The outer loop `for (uint16_t Y = 0; Y != FRAME_H; Y++)` of `MakeFrame`, entered
with counter `Y`; every run of the inner loop gets `innerFuel`. -/
def outerLoop (W H : Nat) (UCorner BCorner : Vector2) (innerFuel : Nat) :
    (fuel : Nat) → (Y : Nat) → (PointsList : List Point) → Option (List Point)
  | 0, _, _ => none
  | fuel + 1, Y, PointsList =>
    if Y ≠ H then
      match innerLoop W H UCorner BCorner Y innerFuel 0 PointsList with
      | none => none
      | some PointsList1 =>
        outerLoop W H UCorner BCorner innerFuel fuel ((Y + 1) % 65536) PointsList1
    else some PointsList

/-- The function `MakeFrame` for a frame of `W` by `H` pixels: the list `PointsList`
after the call, or `none` when some loop needs more than `fuel` tests. -/
def MakeFrame (fuel W H : Nat) (UCorner BCorner : Vector2) (PointsList : List Point) :
    Option (List Point) :=
  outerLoop W H UCorner BCorner fuel fuel 0 PointsList

/-! ## main -/

/-- The local `CenterX` of `main`. -/
def CenterX : nfloat := -0.75

/-- The local `CenterY` of `main`. -/
def CenterY : nfloat := 0.0

/-- The local `ZoomLevel` of `main`: the slice of the X axis to render. -/
def ZoomLevel : nfloat := 3.5

/-- The local `Height` of `main`: `Height = 1.0; Height /= 1.75; Height *= ZoomLevel`. -/
def Height (zoomLevel : nfloat) : nfloat :=
  ((1.0 : nfloat) / 1.75) * zoomLevel

/-- The local `TopY` of `main`. -/
def TopY (centerY zoomLevel : nfloat) : nfloat :=
  (Height zoomLevel / 2.0) + centerY

/-- The local `BottomY` of `main`. -/
def BottomY (centerY zoomLevel : nfloat) : nfloat :=
  (-(Height zoomLevel / 2.0)) + centerY

/-- The local `RightX` of `main`. -/
def RightX (centerX zoomLevel : nfloat) : nfloat :=
  (-(zoomLevel / 2.0)) + centerX

/-- The local `LeftX` of `main`. -/
def LeftX (centerX zoomLevel : nfloat) : nfloat :=
  (zoomLevel / 2.0) + centerX

/-- The local `UpperCorner` of `main`, `{RightX, TopY}`. -/
def UpperCorner (centerX centerY zoomLevel : nfloat) : Vector2 :=
  { X := RightX centerX zoomLevel, Y := TopY centerY zoomLevel }

/-- The local `BottomCorner` of `main`, `{LeftX, BottomY}`. -/
def BottomCorner (centerX centerY zoomLevel : nfloat) : Vector2 :=
  { X := LeftX centerX zoomLevel, Y := BottomY centerY zoomLevel }

/-- The conversion `static_cast<uint64_t>` of an integral `nfloat`: the value itself
when it lies in `[0, 2 ^ 64)`, which is the only case that occurs for the samples
of `MakeFrame`.  Outside that range the conversion is the one of the decimal
library, which is not part of the source; the model reduces modulo `2 ^ 64` there
and no property of the program is derived from that case. -/
def toUInt64 (z : ℤ) : Nat :=
  (z % (2 ^ 64 : ℤ)).toNat

/-- The local `PixelX` of the assembly loop of `main`, for the sample `P`. -/
def PixelX (W : Nat) (UCorner BCorner : Vector2) (P : Point) : nfloat :=
  (P.X - UCorner.X) / (BCorner.X - UCorner.X) * ((((W : ℤ) - 1 : ℤ)) : nfloat)

/-- The local `PixelY` of the assembly loop of `main`, for the sample `P`. -/
def PixelY (H : Nat) (UCorner BCorner : Vector2) (P : Point) : nfloat :=
  (P.Y - UCorner.Y) / (BCorner.Y - UCorner.Y) * ((((H : ℤ) - 1 : ℤ)) : nfloat)

/-- The placement map of `main`, plane to pixel: the pair `(X, Y)` of `uint64_t`
column and row computed for the sample `P`. -/
def planeToPixel (W H : Nat) (UCorner BCorner : Vector2) (P : Point) : Nat × Nat :=
  (toUInt64 ⌊PixelX W UCorner BCorner P⌋, toUInt64 ⌊PixelY H UCorner BCorner P⌋)

/-- The local `Index` of the assembly loop of `main`, `(Y * FRAME_W) + X` in `uint64_t`. -/
def Index (W H : Nat) (UCorner BCorner : Vector2) (P : Point) : Nat :=
  (((planeToPixel W H UCorner BCorner P).2 * W) + (planeToPixel W H UCorner BCorner P).1) % 2 ^ 64

/-- The sample that `MakeFrame` takes at column `col` and row `row`. -/
def sampleAt (W H : Nat) (UCorner BCorner : Vector2) (col row : Nat) : Point :=
  CalculatePoint (PointX W UCorner BCorner col) (PointY H UCorner BCorner row)

/-- The colour that the specification assigns to a classification outcome: black
for `Bounded`, `Colorize` of the iteration for `Escaped`. -/
def colorOf (C : ncomplex) : EscapeResult → RGB
  | EscapeResult.Bounded => { R := 0, G := 0, B := 0 }
  | EscapeResult.Escaped Iter => Colorize C Iter

/-- The list `pts` holds the first `k` samples of the frame in row-major order: the
entry at position `i` is the sample of column `i % W` in row `i / W`. -/
def IsSampled (W H : Nat) (UCorner BCorner : Vector2) (k : Nat) (pts : List Point) : Prop :=
  pts.length = k ∧ ∀ i, i < k → pts[i]? = some (sampleAt W H UCorner BCorner (i % W) (i / W))

/-- The assembly loop of `main`, `for (const Point& P : PointsList)`: each sample
overwrites the three channels of `ImageData[Index]`.  The buffer behind the pointer
`ImageData` is a map from slot numbers to colours, of which the allocated part is
the slots below `FRAME_H * FRAME_W`.  The map describes the program where every
`Index` is below `FRAME_H * FRAME_W`, as it is for every list that `MakeFrame`
returns (`Index_sampleAt_lt`).  A write at a larger `Index` is undefined behaviour
in the source; the entry the map gets there carries no meaning and no property of
the program is derived from it. -/
def assemble (W H : Nat) (UCorner BCorner : Vector2) :
    (PointsList : List Point) → (ImageData : Nat → RGB) → (Nat → RGB)
  | [], ImageData => ImageData
  | P :: rest, ImageData =>
    assemble W H UCorner BCorner rest
      (fun i =>
        if i = Index W H UCorner BCorner P then
          { R := P.Color.R, G := P.Color.G, B := P.Color.B }
        else ImageData i)

/-- The buffer `new RGB[FRAME_H * FRAME_W]`: every element is default-initialised by
the member initialisers of `RGB`, so every slot holds `{0, 0, 0}`. -/
def newImageData : Nat → RGB := fun _ => { R := 0, G := 0, B := 0 }

/-! ## Complex dynamics used for the fast path -/

/-- The complex quadratic map `z ↦ z ^ 2 + c` over the complex numbers of Mathlib, the
map that the loop of `CalculatePoint` iterates. -/
def qmap (c z : ℂ) : ℂ := z ^ 2 + c

/-- The complex number that an `ncomplex` value denotes. -/
def ncomplex.toComplex (z : ncomplex) : ℂ := ⟨(z.re : ℝ), (z.im : ℝ)⟩

/-! ## The loop of CalculatePoint -/

theorem orbit_succ (C : ncomplex) (n : Nat) :
    ((orbit C n).mul (orbit C n)).add C = orbit C (n + 1) := rfl

/-- The loop entered at counter `n` with the `n`-th iterate returns `some k` exactly
when `k` is the first counter value from `n` on, still allowed by the loop
condition, at which the updated `Z` passes the escape test. -/
theorem iterLoop_orbit_some (C : ncomplex) (k : Nat) :
    ∀ r n, (iterLoop C r (orbit C n) n = some k ↔
        (n ≤ k ∧ k < n + r ∧ escapes (orbit C (k + 1)) ∧
          ∀ j, n ≤ j → j < k → ¬ escapes (orbit C (j + 1)))) := by
  intro r
  induction r with
  | zero =>
    intro n
    simp only [iterLoop]
    constructor
    · intro h; cases h
    · rintro ⟨h1, h2, -⟩; omega
  | succ r ih =>
    intro n
    by_cases he : escapes (orbit C (n + 1))
    · simp only [iterLoop, orbit_succ, he, if_true]
      constructor
      · intro h
        have hk : n = k := by simpa using h
        subst hk
        exact ⟨le_refl _, by omega, he, fun j h1 h2 => absurd h2 (by omega)⟩
      · rintro ⟨h1, h2, h3, h4⟩
        rcases Nat.eq_or_lt_of_le h1 with h | h
        · rw [h]
        · exact absurd he (h4 n (le_refl _) h)
    · simp only [iterLoop, orbit_succ, he, if_false]
      rw [ih (n + 1)]
      constructor
      · rintro ⟨h1, h2, h3, h4⟩
        refine ⟨by omega, by omega, h3, fun j hj1 hj2 => ?_⟩
        rcases Nat.eq_or_lt_of_le hj1 with h | h
        · rw [← h]; exact he
        · exact h4 j h hj2
      · rintro ⟨h1, h2, h3, h4⟩
        have hne : n ≠ k := by
          intro h; rw [h] at he; exact he h3
        exact ⟨by omega, by omega, h3, fun j hj1 hj2 => h4 j (by omega) hj2⟩

/-- The loop entered at counter `n` with the `n`-th iterate runs to its end exactly
when no updated `Z` passes the escape test at the remaining counter values. -/
theorem iterLoop_orbit_none (C : ncomplex) :
    ∀ r n, (iterLoop C r (orbit C n) n = none ↔
        ∀ j, n ≤ j → j < n + r → ¬ escapes (orbit C (j + 1))) := by
  intro r
  induction r with
  | zero =>
    intro n
    simp only [iterLoop, true_iff]
    intro j h1 h2; omega
  | succ r ih =>
    intro n
    by_cases he : escapes (orbit C (n + 1))
    · simp only [iterLoop, orbit_succ, he, if_true]
      constructor
      · intro h; cases h
      · intro h; exact absurd he (h n (le_refl _) (by omega))
    · simp only [iterLoop, orbit_succ, he, if_false]
      rw [ih (n + 1)]
      constructor
      · intro h j hj1 hj2
        rcases Nat.eq_or_lt_of_le hj1 with h' | h'
        · rw [← h']; exact he
        · exact h j h' (by omega)
      · intro h j hj1 hj2
        exact h j (by omega) (by omega)

/-- The whole loop of `CalculatePoint`, from `Z = 0` and `Iter = 0`. -/
theorem iterLoop_start_some (C : ncomplex) (k : Nat) :
    iterLoop C MAX_ITERS { re := 0, im := 0 } 0 = some k ↔
      (k < MAX_ITERS ∧ escapes (orbit C (k + 1)) ∧
        ∀ j, j < k → ¬ escapes (orbit C (j + 1))) := by
  have h := iterLoop_orbit_some C k MAX_ITERS 0
  simp only [orbit, Nat.zero_le, true_and, zero_add, forall_true_left] at h
  exact h

theorem iterLoop_start_none (C : ncomplex) :
    iterLoop C MAX_ITERS { re := 0, im := 0 } 0 = none ↔
      ∀ j, j < MAX_ITERS → ¬ escapes (orbit C (j + 1)) := by
  have h := iterLoop_orbit_none C MAX_ITERS 0
  simp only [orbit, Nat.zero_le, zero_add, forall_true_left] at h
  exact h

/-- Outside the fast path, `classify` is `Escaped k` exactly at the first escaping update. -/
theorem classify_escaped_iff (PX PY : nfloat) (k : Nat) (hs : ¬ shortcut PX PY) :
    classify PX PY = EscapeResult.Escaped k ↔
      (k < MAX_ITERS ∧ escapes (orbit { re := PX, im := PY } (k + 1)) ∧
        ∀ j, j < k → ¬ escapes (orbit { re := PX, im := PY } (j + 1))) := by
  rw [← iterLoop_start_some]
  unfold classify
  rw [if_neg hs]
  cases iterLoop { re := PX, im := PY } MAX_ITERS { re := 0, im := 0 } 0 with
  | none => simp
  | some i => simp

theorem classify_bounded_iff (PX PY : nfloat) (hs : ¬ shortcut PX PY) :
    classify PX PY = EscapeResult.Bounded ↔
      ∀ j, j < MAX_ITERS → ¬ escapes (orbit { re := PX, im := PY } (j + 1)) := by
  rw [← iterLoop_start_none]
  unfold classify
  rw [if_neg hs]
  cases iterLoop { re := PX, im := PY } MAX_ITERS { re := 0, im := 0 } 0 with
  | none => simp
  | some i => simp

theorem classify_of_shortcut (PX PY : nfloat) (hs : shortcut PX PY) :
    classify PX PY = EscapeResult.Bounded := by
  unfold classify
  rw [if_pos hs]

/-- An escape is never reported on the fast path. -/
theorem not_shortcut_of_escaped (PX PY : nfloat) (k : Nat)
    (h : classify PX PY = EscapeResult.Escaped k) : ¬ shortcut PX PY := by
  intro hs
  rw [classify_of_shortcut PX PY hs] at h
  cases h

/-- The point returned by `CalculatePoint` carries the coordinates it was given and
the colour of the control path taken. -/
theorem CalculatePoint_eq (PX PY : nfloat) :
    CalculatePoint PX PY =
      { X := PX, Y := PY, Color := colorOf { re := PX, im := PY } (classify PX PY) } := by
  unfold CalculatePoint classify
  by_cases hs : shortcut PX PY
  · simp only [if_pos hs, colorOf]
  · simp only [if_neg hs]
    cases iterLoop { re := PX, im := PY } MAX_ITERS { re := 0, im := 0 } 0 with
    | none => simp only [colorOf]
    | some i => simp only [colorOf]

theorem CalculatePoint_X (PX PY : nfloat) : (CalculatePoint PX PY).X = PX := by
  rw [CalculatePoint_eq]

theorem CalculatePoint_Y (PX PY : nfloat) : (CalculatePoint PX PY).Y = PY := by
  rw [CalculatePoint_eq]

/-- The blue channel of `Colorize` as an exact integer. -/
theorem Colorize_floor (n : Nat) :
    ⌊(((if n > 64 then 64 else (n : ℚ)) : ℚ) / 64) * 255⌋ = (((255 * min n 64) / 64 : Nat) : ℤ) := by
  have hmin : ((if n > 64 then 64 else (n : ℚ)) : ℚ) = ((min n 64 : Nat) : ℚ) := by
    by_cases h : n > 64
    · rw [if_pos h, min_eq_right (le_of_lt h)]; norm_num
    · rw [if_neg h, min_eq_left (not_lt.mp h)]
  rw [hmin]
  have h1 : (((min n 64 : Nat) : ℚ) / 64) * 255 = ((255 * min n 64 : Nat) : ℚ) / ((64 : Nat) : ℚ) := by
    push_cast; ring
  rw [h1, Rat.floor_natCast_div_natCast]
  norm_cast

theorem Colorize_blue_le (n : Nat) : (255 * min n 64) / 64 ≤ 255 := by
  have : min n 64 ≤ 64 := min_le_right _ _
  omega

theorem Colorize_eq (C : ncomplex) (n : Nat) :
    Colorize C n = { R := 0, G := 0, B := (255 * min n 64) / 64 } := by
  unfold Colorize
  simp only []
  rw [Colorize_floor]
  have h := Colorize_blue_le n
  congr 1
  omega

/-! ## The loops of MakeFrame -/

theorem IsSampled_snoc (W H : Nat) (U B : Vector2) (X Y : Nat) (pts : List Point)
    (hX : X < W) (h : IsSampled W H U B (Y * W + X) pts) :
    IsSampled W H U B (Y * W + (X + 1))
      (pts ++ [CalculatePoint (PointX W U B X) (PointY H U B Y)]) := by
  obtain ⟨hlen, hget⟩ := h
  refine ⟨by simp [hlen]; omega, fun i hi => ?_⟩
  rcases Nat.lt_or_ge i (Y * W + X) with hlt | hge
  · rw [List.getElem?_append_left (by omega)]
    exact hget i hlt
  · have hi2 : i = Y * W + X := by omega
    have hmod : i % W = X := by
      rw [hi2, Nat.add_comm, Nat.add_mul_mod_self_right, Nat.mod_eq_of_lt hX]
    have hdiv : i / W = Y := by
      rw [hi2, Nat.add_comm, Nat.add_mul_div_right _ _ (by omega), Nat.div_eq_of_lt hX,
        Nat.zero_add]
    rw [hmod, hdiv, List.getElem?_append_right (by omega)]
    simp [hlen, hi2, sampleAt]

/-- With a 16-bit width and enough fuel, the inner loop entered at column `X` of row
`Y` appends the samples of the columns `X, ..., W - 1` of that row. -/
theorem innerLoop_spec (W H : Nat) (U B : Vector2) (Y : Nat) (hW : W < 65536) :
    ∀ (fuel X : Nat) (L pts : List Point), X ≤ W → W - X < fuel →
      IsSampled W H U B (Y * W + X) pts →
      ∃ pts1, innerLoop W H U B Y fuel X (L ++ pts) = some (L ++ pts1) ∧
        IsSampled W H U B (Y * W + W) pts1 := by
  intro fuel
  induction fuel with
  | zero => intro X L pts _ hf; omega
  | succ fuel ih =>
    intro X L pts hX hf hs
    by_cases hXW : X = W
    · refine ⟨pts, ?_, by rw [← hXW]; exact hXW ▸ hs⟩
      simp only [innerLoop, hXW, ne_eq, not_true_eq_false, if_false]
    · have hlt : X < W := by omega
      have hwrap : (X + 1) % 65536 = X + 1 := Nat.mod_eq_of_lt (by omega)
      simp only [innerLoop, ne_eq, hXW, not_false_eq_true, if_true, hwrap]
      rw [List.append_assoc]
      exact ih (X + 1) L _ (by omega) (by omega) (IsSampled_snoc W H U B X Y pts hlt hs)

/-- With 16-bit dimensions and enough fuel, the outer loop entered at row `Y` appends
the samples of the rows `Y, ..., H - 1`. -/
theorem outerLoop_spec (W H : Nat) (U B : Vector2) (innerFuel : Nat) (hW : W < 65536)
    (hH : H < 65536) (hin : W < innerFuel) :
    ∀ (fuel Y : Nat) (L pts : List Point), Y ≤ H → H - Y < fuel →
      IsSampled W H U B (Y * W) pts →
      ∃ pts1, outerLoop W H U B innerFuel fuel Y (L ++ pts) = some (L ++ pts1) ∧
        IsSampled W H U B (H * W) pts1 := by
  intro fuel
  induction fuel with
  | zero => intro Y L pts _ hf; omega
  | succ fuel ih =>
    intro Y L pts hY hf hs
    by_cases hYH : Y = H
    · refine ⟨pts, ?_, hYH ▸ hs⟩
      simp only [outerLoop, hYH, ne_eq, not_true_eq_false, if_false]
    · have hlt : Y < H := by omega
      have hwrap : (Y + 1) % 65536 = Y + 1 := Nat.mod_eq_of_lt (by omega)
      obtain ⟨row, hrow, hrs⟩ :=
        innerLoop_spec W H U B Y hW innerFuel 0 L pts (Nat.zero_le _) (by omega) hs
      simp only [outerLoop, ne_eq, hYH, not_false_eq_true, if_true, hwrap, hrow]
      have hrs1 : IsSampled W H U B ((Y + 1) * W) row := by
        rw [Nat.add_mul, Nat.one_mul]; exact hrs
      exact ih (Y + 1) L row (by omega) (by omega) hrs1

/-- For 16-bit dimensions and enough fuel `MakeFrame` returns, having appended the
`W * H` samples of the frame in row-major order. -/
theorem MakeFrame_spec (fuel W H : Nat) (U B : Vector2) (L : List Point) (hW : W < 65536)
    (hH : H < 65536) (hfW : W < fuel) (hfH : H < fuel) :
    ∃ pts, MakeFrame fuel W H U B L = some (L ++ pts) ∧ IsSampled W H U B (H * W) pts := by
  have h0 : IsSampled W H U B (0 * W) [] := ⟨by simp, fun i hi => by omega⟩
  have h := outerLoop_spec W H U B fuel hW hH hfW fuel 0 L [] (Nat.zero_le _) (by omega) h0
  simpa [MakeFrame] using h

/-- With a width of 65536 the 16-bit counter `X` never equals the width: the inner
loop exhausts every amount of fuel. -/
theorem innerLoop_diverges (H : Nat) (U B : Vector2) (Y : Nat) :
    ∀ (fuel X : Nat) (L : List Point), X < 65536 →
      innerLoop 65536 H U B Y fuel X L = none := by
  intro fuel
  induction fuel with
  | zero => intro X L _; rfl
  | succ fuel ih =>
    intro X L hX
    have hne : X ≠ 65536 := by omega
    simp only [innerLoop, ne_eq, hne, not_false_eq_true, if_true]
    exact ih _ _ (Nat.mod_lt _ (by norm_num))

/-! ## Concrete points -/

theorem not_shortcut_two_two : ¬ shortcut 2 2 := by
  unfold shortcut; norm_num [QUARTER, SIXTEENTH]

theorem not_shortcut_three_zero : ¬ shortcut 3 0 := by
  unfold shortcut; norm_num [QUARTER, SIXTEENTH]

theorem not_shortcut_corner : ¬ shortcut (-2.5) 1.0 := by
  unfold shortcut; norm_num [QUARTER, SIXTEENTH]

/-- At `c = 2 + 2i` the first update gives exactly `(2, 2)`, which does not exceed the
boundary, and the second gives `(2, 10)`: the loop returns with `Iter = 1`. -/
theorem classify_two_two : classify 2 2 = EscapeResult.Escaped 1 := by
  rw [classify_escaped_iff 2 2 1 not_shortcut_two_two]
  refine ⟨by norm_num [MAX_ITERS], ?_, ?_⟩
  · norm_num [escapes, orbit, ncomplex.mul, ncomplex.add, ESCAPE_BOUNDARY]
  · intro j hj
    interval_cases j
    norm_num [escapes, orbit, ncomplex.mul, ncomplex.add, ESCAPE_BOUNDARY]

theorem classify_three_zero : classify 3 0 = EscapeResult.Escaped 0 := by
  rw [classify_escaped_iff 3 0 0 not_shortcut_three_zero]
  refine ⟨by norm_num [MAX_ITERS], ?_, fun j hj => absurd hj (Nat.not_lt_zero j)⟩
  norm_num [escapes, orbit, ncomplex.mul, ncomplex.add, ESCAPE_BOUNDARY]

theorem classify_corner : classify (-2.5) 1.0 = EscapeResult.Escaped 0 := by
  rw [classify_escaped_iff (-2.5) 1.0 0 not_shortcut_corner]
  refine ⟨by norm_num [MAX_ITERS], ?_, fun j hj => absurd hj (Nat.not_lt_zero j)⟩
  norm_num [escapes, orbit, ncomplex.mul, ncomplex.add, ESCAPE_BOUNDARY, abs_of_neg]

theorem Colorize_zero (C : ncomplex) : Colorize C 0 = { R := 0, G := 0, B := 0 } := by
  rw [Colorize_eq]; rfl

theorem Colorize_one (C : ncomplex) : Colorize C 1 = { R := 0, G := 0, B := 3 } := by
  rw [Colorize_eq]; rfl

/-! ## Mapping round trip (C1) -/

/-- C1, evaluated on the frame of the program: with the viewport of `main` and the
640 by 360 frame, the sample that `MakeFrame` takes at the pixel in column 1 and
row 1 is placed by the index computation of `main` in column 0 and row 0; the
round trip does not return the pixel `(1, 1)` it started from. -/
theorem roundtrip_at_one_one :
    planeToPixel FRAME_W FRAME_H (UpperCorner CenterX CenterY ZoomLevel)
        (BottomCorner CenterX CenterY ZoomLevel)
        (sampleAt FRAME_W FRAME_H (UpperCorner CenterX CenterY ZoomLevel)
          (BottomCorner CenterX CenterY ZoomLevel) 1 1) = (0, 0) ∧
      ((0, 0) : Nat × Nat) ≠ (1, 1) := by
  refine ⟨?_, by decide⟩
  have hx : ⌊PixelX FRAME_W (UpperCorner CenterX CenterY ZoomLevel)
      (BottomCorner CenterX CenterY ZoomLevel)
      (sampleAt FRAME_W FRAME_H (UpperCorner CenterX CenterY ZoomLevel)
        (BottomCorner CenterX CenterY ZoomLevel) 1 1)⌋ = 0 := by
    rw [Int.floor_eq_iff]
    simp only [PixelX, sampleAt, CalculatePoint_X, PointX, DeltaX, UpperCorner, BottomCorner,
      RightX, LeftX, CenterX, ZoomLevel, FRAME_W]
    norm_num
  have hy : ⌊PixelY FRAME_H (UpperCorner CenterX CenterY ZoomLevel)
      (BottomCorner CenterX CenterY ZoomLevel)
      (sampleAt FRAME_W FRAME_H (UpperCorner CenterX CenterY ZoomLevel)
        (BottomCorner CenterX CenterY ZoomLevel) 1 1)⌋ = 0 := by
    rw [Int.floor_eq_iff]
    simp only [PixelY, sampleAt, CalculatePoint_Y, PointY, DeltaY, UpperCorner, BottomCorner,
      TopY, BottomY, Height, CenterY, ZoomLevel, FRAME_H]
    norm_num
  simp only [planeToPixel, hx, hy]
  rfl

/-! ## Coverage (C2) -/

/-- C2, as stated, fails for a width of 65536: the column counter of `MakeFrame` is a
`uint16_t`, it never equals 65536, and no amount of fuel lets the call return. -/
theorem MakeFrame_width_65536_never_returns :
    ¬ ∃ fuel pts, MakeFrame fuel 65536 1 (UpperCorner CenterX CenterY ZoomLevel)
        (BottomCorner CenterX CenterY ZoomLevel) [] = some pts := by
  rintro ⟨fuel, pts, h⟩
  cases fuel with
  | zero => simp [MakeFrame, outerLoop] at h
  | succ fuel =>
    simp [MakeFrame, outerLoop,
      innerLoop_diverges 1 _ _ 0 (fuel + 1) 0 [] (by norm_num)] at h

/-- C2, amended: for all positive width and height that fit the 16-bit loop counters
(at most 65535) and enough fuel, `MakeFrame` returns with exactly `W * H` points
appended to the list, in row-major order: the point at position `row * W + col` is
`CalculatePoint` of `x = upper.x + ((lower.x - upper.x) / W) * col` and
`y = upper.y + ((lower.y - upper.y) / H) * row` and carries these coordinates, and
every position `i` of the appended list is the sample of exactly the pixel
`(i % W, i / W)` of the grid. -/
theorem MakeFrame_coverage (fuel W H : Nat) (U B : Vector2) (L : List Point)
    (hW : 0 < W ∧ W ≤ 65535) (hH : 0 < H ∧ H ≤ 65535) (hfuel : W < fuel ∧ H < fuel) :
    ∃ pts, MakeFrame fuel W H U B L = some (L ++ pts) ∧ pts.length = W * H ∧
      (∀ row col, row < H → col < W →
        ∃ P, pts[row * W + col]? = some P ∧
          P = CalculatePoint (U.X + ((B.X - U.X) / (W : ℚ)) * (col : ℚ))
                (U.Y + ((B.Y - U.Y) / (H : ℚ)) * (row : ℚ)) ∧
          P.X = U.X + ((B.X - U.X) / (W : ℚ)) * (col : ℚ) ∧
          P.Y = U.Y + ((B.Y - U.Y) / (H : ℚ)) * (row : ℚ)) ∧
      (∀ i, i < W * H →
        i % W < W ∧ i / W < H ∧ pts[i]? = some (sampleAt W H U B (i % W) (i / W))) := by
  obtain ⟨pts, hret, hlen, hget⟩ :=
    MakeFrame_spec fuel W H U B L (by omega) (by omega) hfuel.1 hfuel.2
  refine ⟨pts, hret, by rw [hlen, Nat.mul_comm], ?_, ?_⟩
  · intro row col hrow hcol
    have hlt : row * W + col < H * W := by
      calc row * W + col < row * W + W := by omega
        _ = (row + 1) * W := by ring
        _ ≤ H * W := Nat.mul_le_mul_right W hrow
    have hmod : (row * W + col) % W = col := by
      rw [Nat.add_comm, Nat.add_mul_mod_self_right, Nat.mod_eq_of_lt hcol]
    have hdiv : (row * W + col) / W = row := by
      rw [Nat.add_comm, Nat.add_mul_div_right _ _ hW.1, Nat.div_eq_of_lt hcol, Nat.zero_add]
    have h := hget _ hlt
    rw [hmod, hdiv] at h
    refine ⟨_, h, ?_, ?_, ?_⟩
    · simp [sampleAt, PointX, PointY, DeltaX, DeltaY]
    · simp [sampleAt, CalculatePoint_X, PointX, DeltaX]
    · simp [sampleAt, CalculatePoint_Y, PointY, DeltaY]
  · intro i hi
    refine ⟨Nat.mod_lt _ hW.1, ?_, hget i (by rw [Nat.mul_comm]; exact hi)⟩
    exact Nat.div_lt_of_lt_mul hi

/-- Witness of C2 (amended) on the 4 by 2 grid with the viewport of `main`: the
hypotheses hold there and `MakeFrame` returns eight points. -/
theorem MakeFrame_coverage_witness :
    ((0 < 4 ∧ 4 ≤ 65535) ∧ (0 < 2 ∧ 2 ≤ 65535) ∧ (4 < 5 ∧ 2 < 5)) ∧
      ∃ pts, MakeFrame 5 4 2 (UpperCorner CenterX CenterY ZoomLevel)
          (BottomCorner CenterX CenterY ZoomLevel) [] = some ([] ++ pts) ∧ pts.length = 4 * 2 :=
  ⟨by decide,
    (MakeFrame_coverage 5 4 2 (UpperCorner CenterX CenterY ZoomLevel)
      (BottomCorner CenterX CenterY ZoomLevel) [] (by decide) (by decide) (by decide)).imp
      fun _ h => ⟨h.1, h.2.1⟩⟩

/-! ## The classifier (C3, C5, C6, C8) -/

/-- C3: for every `c = (x, y)`, if with `q = (x - 1/4)^2 + y^2` the cardioid inequality
`q * (q + (x - 1/4)) <= (1/4) * y^2` holds, or the bulb inequality
`(x + 1)^2 + y^2 <= 1/16` holds, then `CalculatePoint` returns the point `(x, y)`
with colour `{0,0,0}` and no escape is reported: the classification is `Bounded`. -/
theorem shortcut_gives_bounded (x y : ℚ)
    (h : ((x - 1 / 4) ^ 2 + y ^ 2) * (((x - 1 / 4) ^ 2 + y ^ 2) + (x - 1 / 4)) ≤ (1 / 4) * y ^ 2 ∨
      (x + 1) ^ 2 + y ^ 2 ≤ 1 / 16) :
    CalculatePoint x y = { X := x, Y := y, Color := { R := 0, G := 0, B := 0 } } ∧
      classify x y = EscapeResult.Bounded := by
  have hs : shortcut x y := by
    unfold shortcut
    simp only [QUARTER, SIXTEENTH]
    rcases h with h | h
    · right
      have e1 : (x - 1 / 4) * (x - 1 / 4) + y * y = (x - 1 / 4) ^ 2 + y ^ 2 := by ring
      rw [e1]
      calc ((x - 1 / 4) ^ 2 + y ^ 2) * (((x - 1 / 4) ^ 2 + y ^ 2) + (x - 1 / 4))
          ≤ (1 / 4) * y ^ 2 := h
        _ = y * y * (1 / 4) := by ring
    · left
      calc (x + 1) * (x + 1) + y * y = (x + 1) ^ 2 + y ^ 2 := by ring
        _ ≤ 1 / 16 := h
  refine ⟨?_, classify_of_shortcut x y hs⟩
  rw [CalculatePoint_eq, classify_of_shortcut x y hs]
  rfl

/-- Witness of C3, the known-interior example: `c = 0 + 0i` satisfies the cardioid
inequality, is classified `Bounded` and coloured `{0,0,0}`. -/
theorem shortcut_gives_bounded_witness :
    CalculatePoint 0 0 = { X := 0, Y := 0, Color := { R := 0, G := 0, B := 0 } } ∧
      classify 0 0 = EscapeResult.Bounded :=
  shortcut_gives_bounded 0 0 (by norm_num)

/-- C5: if the classifier reports an escape at iteration `k`, then for every `j < k`
the iterate computed at step `j` (the value of `Z` after the update with
`Iter = j`) has `|Re z| <= 2` and `|Im z| <= 2`, and the iterate computed at step `k`
exceeds the boundary in some component: `k` is the first step at which the
boundary is exceeded. -/
theorem escape_monotonicity (x y : ℚ) (k : Nat)
    (h : classify x y = EscapeResult.Escaped k) :
    (∀ j, j < k →
      |(orbit { re := x, im := y } (j + 1)).re| ≤ 2 ∧
        |(orbit { re := x, im := y } (j + 1)).im| ≤ 2) ∧
      (|(orbit { re := x, im := y } (k + 1)).re| > 2 ∨
        |(orbit { re := x, im := y } (k + 1)).im| > 2) := by
  have hs := not_shortcut_of_escaped x y k h
  obtain ⟨-, hk, hbefore⟩ := (classify_escaped_iff x y k hs).mp h
  refine ⟨fun j hj => ?_, hk⟩
  have hj2 := hbefore j hj
  unfold escapes at hj2
  simp only [ESCAPE_BOUNDARY, gt_iff_lt, not_or, not_lt] at hj2
  exact hj2

/-- Witness of C5 at `c = 2 + 2i`, which escapes at iteration 1. -/
theorem escape_monotonicity_witness :
    classify 2 2 = EscapeResult.Escaped 1 ∧
      ((∀ j, j < 1 →
        |(orbit { re := 2, im := 2 } (j + 1)).re| ≤ 2 ∧
          |(orbit { re := 2, im := 2 } (j + 1)).im| ≤ 2) ∧
        (|(orbit { re := 2, im := 2 } (1 + 1)).re| > 2 ∨
          |(orbit { re := 2, im := 2 } (1 + 1)).im| > 2)) :=
  ⟨classify_two_two, escape_monotonicity 2 2 1 classify_two_two⟩

/-- C6, as stated, fails at `c = 3 + 0i` and `k = 1`: the point is outside both
shortcut regions, `1 < MAX_ITERS` and the iterate after the second update exceeds
the boundary, yet the classifier returns `Escaped 0`, not `Escaped 1`. -/
theorem escaped_iff_fails_at_three :
    ¬ shortcut 3 0 ∧
      (1 < MAX_ITERS ∧ escapes (orbit { re := 3, im := 0 } (1 + 1))) ∧
      classify 3 0 = EscapeResult.Escaped 0 ∧
      classify 3 0 ≠ EscapeResult.Escaped 1 := by
  refine ⟨not_shortcut_three_zero, ⟨by norm_num [MAX_ITERS], ?_⟩, classify_three_zero, ?_⟩
  · norm_num [escapes, orbit, ncomplex.mul, ncomplex.add, ESCAPE_BOUNDARY]
  · rw [classify_three_zero]; decide

/-- C6, amended: for every `c` outside both shortcut regions, the classifier returns
`Escaped k` exactly when `k < MAX_ITERS`, the iterate after the `(k+1)`-th update
(from `z = 0`) has `|Re z| > 2` or `|Im z| > 2`, and no earlier iterate does; it
returns `Bounded` exactly when none of the first `MAX_ITERS = 100` iterates exceeds
the boundary in either component; so any reported iteration lies in
`[0, MAX_ITERS)`. -/
theorem classify_characterisation (x y : ℚ) (hs : ¬ shortcut x y) :
    (∀ k, classify x y = EscapeResult.Escaped k ↔
      (k < MAX_ITERS ∧
        (|(orbit { re := x, im := y } (k + 1)).re| > 2 ∨
          |(orbit { re := x, im := y } (k + 1)).im| > 2) ∧
        ∀ j, j < k →
          ¬ (|(orbit { re := x, im := y } (j + 1)).re| > 2 ∨
            |(orbit { re := x, im := y } (j + 1)).im| > 2))) ∧
      (classify x y = EscapeResult.Bounded ↔
        ∀ j, j < MAX_ITERS →
          ¬ (|(orbit { re := x, im := y } (j + 1)).re| > 2 ∨
            |(orbit { re := x, im := y } (j + 1)).im| > 2)) ∧
      (∀ k, classify x y = EscapeResult.Escaped k → k < MAX_ITERS) ∧
      MAX_ITERS = 100 := by
  refine ⟨fun k => classify_escaped_iff x y k hs, classify_bounded_iff x y hs, fun k hk => ?_, rfl⟩
  exact ((classify_escaped_iff x y k hs).mp hk).1

/-- Witness of C6 (amended) at `c = 3 + 0i`, outside both shortcut regions. -/
theorem classify_characterisation_witness :
    ¬ shortcut 3 0 ∧
      (classify 3 0 = EscapeResult.Escaped 0 ↔
        (0 < MAX_ITERS ∧
          (|(orbit { re := 3, im := 0 } (0 + 1)).re| > 2 ∨
            |(orbit { re := 3, im := 0 } (0 + 1)).im| > 2) ∧
          ∀ j, j < 0 →
            ¬ (|(orbit { re := 3, im := 0 } (j + 1)).re| > 2 ∨
              |(orbit { re := 3, im := 0 } (j + 1)).im| > 2))) :=
  ⟨not_shortcut_three_zero, (classify_characterisation 3 0 not_shortcut_three_zero).1 0⟩

/-- C8, as stated, fails: `c = 2 + 2i` does not escape at iteration 0 and its colour is
not `{0,0,0}`. -/
theorem two_two_not_iteration_zero :
    classify 2 2 ≠ EscapeResult.Escaped 0 ∧
      (CalculatePoint 2 2).Color ≠ { R := 0, G := 0, B := 0 } := by
  constructor
  · rw [classify_two_two]; decide
  · rw [CalculatePoint_eq, classify_two_two]
    simp only [colorOf, Colorize_one]
    decide

/-- C8, amended: for `c = 2 + 2i` the first update gives `z = 0^2 + c = (2, 2)`, whose
components equal the escape boundary 2.0 and do not exceed it; the second update
gives `(2, 10)`, so the classifier escapes at iteration 1, and the resulting colour
is `{0,0,3}`. -/
theorem two_two_escapes_at_one :
    orbit { re := 2, im := 2 } 1 = { re := 2, im := 2 } ∧
      ¬ escapes (orbit { re := 2, im := 2 } 1) ∧
      orbit { re := 2, im := 2 } 2 = { re := 2, im := 10 } ∧
      classify 2 2 = EscapeResult.Escaped 1 ∧
      CalculatePoint 2 2 = { X := 2, Y := 2, Color := { R := 0, G := 0, B := 3 } } := by
  refine ⟨?_, ?_, ?_, classify_two_two, ?_⟩
  · norm_num [orbit, ncomplex.mul, ncomplex.add]
  · norm_num [escapes, orbit, ncomplex.mul, ncomplex.add, ESCAPE_BOUNDARY]
  · norm_num [orbit, ncomplex.mul, ncomplex.add]
  · rw [CalculatePoint_eq, classify_two_two]
    simp only [colorOf, Colorize_one]

/-! ## Colorizer (C7) -/

/-- C7: for every escape iteration count `n` (any natural number, so any unsigned
64-bit value), `Colorize` returns `R = 0`, `G = 0` and
`B = floor((min(n, 64) / 64) * 255)`; that floor is the exact integer
`(255 * min(n, 64)) div 64`, which lies in `[0, 255]`, so the conversion to a byte
does not wrap; and a `Bounded` result is always coloured `{0,0,0}`. -/
theorem Colorize_formula_range (C : ncomplex) (n : Nat) :
    Colorize C n = { R := 0, G := 0, B := (255 * min n 64) / 64 } ∧
      ⌊(((min n 64 : Nat) : ℚ) / 64) * 255⌋ = (((255 * min n 64) / 64 : Nat) : ℤ) ∧
      (0 ≤ ⌊(((min n 64 : Nat) : ℚ) / 64) * 255⌋ ∧ ⌊(((min n 64 : Nat) : ℚ) / 64) * 255⌋ ≤ 255) ∧
      (Colorize C n).B ≤ 255 ∧
      (∀ x y : ℚ, classify x y = EscapeResult.Bounded →
        (CalculatePoint x y).Color = { R := 0, G := 0, B := 0 }) := by
  have hfl : ⌊(((min n 64 : Nat) : ℚ) / 64) * 255⌋ = (((255 * min n 64) / 64 : Nat) : ℤ) := by
    have h := Colorize_floor (min n 64)
    have h64 : ¬ (min n 64 > 64) := not_lt.mpr (min_le_right _ _)
    rw [if_neg h64, min_eq_left (min_le_right n 64)] at h
    exact h
  have hle := Colorize_blue_le n
  refine ⟨Colorize_eq C n, hfl, ?_, ?_, ?_⟩
  · rw [hfl]
    exact ⟨Int.natCast_nonneg _, by exact_mod_cast hle⟩
  · rw [Colorize_eq]; exact hle
  · intro x y hb
    rw [CalculatePoint_eq, hb]
    rfl

/-- Witness of C7: the point `0 + 0i` is classified `Bounded` and coloured `{0,0,0}`. -/
theorem Colorize_formula_range_witness :
    classify 0 0 = EscapeResult.Bounded ∧
      (CalculatePoint 0 0).Color = { R := 0, G := 0, B := 0 } :=
  ⟨classify_of_shortcut 0 0 (by unfold shortcut; norm_num [QUARTER, SIXTEENTH]),
    (Colorize_formula_range { re := 0, im := 0 } 0).2.2.2.2 0 0
      (classify_of_shortcut 0 0 (by unfold shortcut; norm_num [QUARTER, SIXTEENTH]))⟩

/-! ## End-to-end example (C9) -/

/-- C9, as stated, fails: the sample of pixel `(0,0)` of the 4 by 2 grid over the
viewport `upper = (-2.5, 1.0)`, `lower = (1.0, -1.0)` is black, its blue component
is 0 and not greater than 0. -/
theorem corner_sample_is_black :
    (sampleAt 4 2 { X := -2.5, Y := 1.0 } { X := 1.0, Y := -1.0 } 0 0).Color =
        { R := 0, G := 0, B := 0 } ∧
      ¬ (0 < (sampleAt 4 2 { X := -2.5, Y := 1.0 } { X := 1.0, Y := -1.0 } 0 0).Color.B) := by
  have hx : PointX 4 { X := -2.5, Y := 1.0 } { X := 1.0, Y := -1.0 } 0 = -2.5 := by
    norm_num [PointX, DeltaX]
  have hy : PointY 2 { X := -2.5, Y := 1.0 } { X := 1.0, Y := -1.0 } 0 = 1.0 := by
    norm_num [PointY, DeltaY]
  have hc : (sampleAt 4 2 { X := -2.5, Y := 1.0 } { X := 1.0, Y := -1.0 } 0 0).Color =
      { R := 0, G := 0, B := 0 } := by
    unfold sampleAt
    rw [hx, hy, CalculatePoint_eq, classify_corner]
    simp only [colorOf, Colorize_zero]
  exact ⟨hc, by rw [hc]; decide⟩

/-- C9, amended: with viewport `upper = (-2.5, 1.0)`, `lower = (1.0, -1.0)` and a 4 by 2
grid, pixel `(0,0)` is sampled at plane point `(-2.5, 1.0)`, the first of the eight
points that `MakeFrame` produces; classifying `(-2.5, 1.0)` yields an escape at
iteration 0, and the colour assigned to that sample is black, `{0,0,0}`. -/
theorem corner_sample_escapes_at_zero :
    pixelToPlane 4 2 { X := -2.5, Y := 1.0 } { X := 1.0, Y := -1.0 } 0 0 =
        { X := -2.5, Y := 1.0 } ∧
      (∃ pts, MakeFrame 5 4 2 { X := -2.5, Y := 1.0 } { X := 1.0, Y := -1.0 } [] = some pts ∧
        pts.length = 8 ∧
        pts[0]? = some { X := -2.5, Y := 1.0, Color := { R := 0, G := 0, B := 0 } }) ∧
      classify (-2.5) 1.0 = EscapeResult.Escaped 0 ∧
      CalculatePoint (-2.5) 1.0 =
        { X := -2.5, Y := 1.0, Color := { R := 0, G := 0, B := 0 } } := by
  have hx : PointX 4 { X := -2.5, Y := 1.0 } { X := 1.0, Y := -1.0 } 0 = -2.5 := by
    norm_num [PointX, DeltaX]
  have hy : PointY 2 { X := -2.5, Y := 1.0 } { X := 1.0, Y := -1.0 } 0 = 1.0 := by
    norm_num [PointY, DeltaY]
  have hp : CalculatePoint (-2.5) 1.0 =
      { X := -2.5, Y := 1.0, Color := { R := 0, G := 0, B := 0 } } := by
    rw [CalculatePoint_eq, classify_corner]
    simp only [colorOf, Colorize_zero]
  refine ⟨?_, ?_, classify_corner, hp⟩
  · simp only [pixelToPlane, hx, hy]
  · obtain ⟨pts, hret, hlen, hget⟩ :=
      MakeFrame_spec 5 4 2 { X := -2.5, Y := 1.0 } { X := 1.0, Y := -1.0 } []
        (by norm_num) (by norm_num) (by norm_num) (by norm_num)
    refine ⟨pts, by simpa using hret, hlen, ?_⟩
    have h0 := hget 0 (by norm_num)
    rw [h0]
    simp only [Nat.zero_mod, Nat.zero_div, sampleAt, hx, hy, hp]

/-! ## Holomorphic square roots and attracting cycles of the quadratic map -/

section Dynamics

open Metric

/-- A holomorphic function on an open disc has a primitive there. -/
theorem exists_primitive_on_ball {f : ℂ → ℂ} {a : ℂ} {r : ℝ}
    (hf : DifferentiableOn ℂ f (ball a r)) :
    ∃ F : ℂ → ℂ, ∀ z ∈ ball a r, HasDerivAt F (f z) z := by
  let A : ℕ → ℂ := fun n => ((n.factorial : ℂ))⁻¹ * iteratedDeriv n f a
  have hsum : ∀ z ∈ ball a r, HasSum (fun n => A n * (z - a) ^ n) (f z) := by
    intro z hz
    have h := Complex.hasSum_taylorSeries_on_ball hf hz
    convert h using 2 with n
    simp only [A, smul_eq_mul]
    ring
  let g : ℕ → ℂ → ℂ := fun n z => A n / ((n : ℂ) + 1) * (z - a) ^ (n + 1)
  let g' : ℕ → ℂ → ℂ := fun n z => A n * (z - a) ^ n
  have hg : ∀ n y, HasDerivAt (g n) (g' n y) y := by
    intro n y
    have h1 : HasDerivAt (fun z : ℂ => (z - a) ^ (n + 1)) (((n + 1 : ℕ) : ℂ) * (y - a) ^ n * 1) y :=
      ((hasDerivAt_id y).sub_const a).pow (n + 1)
    have h2 := h1.const_mul (A n / ((n : ℂ) + 1))
    convert h2 using 1
    have hne : ((n : ℂ) + 1) ≠ 0 := by
      have : ((n + 1 : ℕ) : ℂ) ≠ 0 := Nat.cast_ne_zero.mpr (Nat.succ_ne_zero n)
      simpa using this
    simp only [g']
    push_cast
    field_simp
    ring
  refine ⟨fun z => tsum fun n => g n z, fun z hz => ?_⟩
  obtain ⟨ρ, hzρ, hρr⟩ := exists_between (mem_ball.mp hz)
  have hρ0 : 0 < ρ := lt_of_le_of_lt dist_nonneg hzρ
  -- a point at distance ρ from a
  have hw : a + (ρ : ℂ) ∈ ball a r := by
    rw [mem_ball, dist_eq_norm]
    simp [abs_of_pos hρ0, hρr]
  have hsw := (hsum _ hw).summable
  have hu : Summable (fun n => ‖A n‖ * ρ ^ n) := by
    have := hsw.norm
    refine this.congr fun n => ?_
    simp [abs_of_pos hρ0]
  have key : HasDerivAt (fun z => tsum fun n => g n z) (tsum fun n => g' n z) z :=
    hasDerivAt_tsum_of_isPreconnected hu
    (isOpen_ball : IsOpen (ball a ρ)) (convex_ball a ρ).isPreconnected (fun n y _ => hg n y)
    (fun n y hy => by
      simp only [g', norm_mul, norm_pow]
      have : ‖y - a‖ ≤ ρ := by
        rw [← dist_eq_norm]; exact le_of_lt (mem_ball.mp hy)
      gcongr)
    (mem_ball_self hρ0)
    (by
      have : (fun n => g n a) = fun _ => 0 := by
        funext n; simp [g]
      rw [this]; exact summable_zero)
    (mem_ball.mpr hzρ)
  have : (tsum fun n => g' n z) = f z := (hsum z hz).tsum_eq
  rw [this] at key
  exact key

/-- A holomorphic function without zeros on an open disc has a holomorphic square
root there. -/
theorem exists_sqrt_on_ball {g : ℂ → ℂ} {a : ℂ} {r : ℝ} (hr : 0 < r)
    (hg : DifferentiableOn ℂ g (ball a r)) (hne : ∀ z ∈ ball a r, g z ≠ 0) :
    ∃ s : ℂ → ℂ, DifferentiableOn ℂ s (ball a r) ∧ ∀ z ∈ ball a r, s z ^ 2 = g z := by
  have hdg : DifferentiableOn ℂ (deriv g) (ball a r) :=
    (hg.analyticOnNhd isOpen_ball).deriv.differentiableOn
  have hq : DifferentiableOn ℂ (fun z => deriv g z / g z) (ball a r) := hdg.div hg hne
  obtain ⟨L, hL⟩ := exists_primitive_on_ball hq
  have hga : g a ≠ 0 := hne a (mem_ball_self hr)
  have hφ : ∀ z ∈ ball a r, HasDerivAt (fun z => Complex.exp (-L z) * g z) 0 z := by
    intro z hz
    have h1 : HasDerivAt g (deriv g z) z :=
      (hg.differentiableAt (isOpen_ball.mem_nhds hz)).hasDerivAt
    have h2 : HasDerivAt (fun z => Complex.exp (-L z))
        (Complex.exp (-L z) * (-(deriv g z / g z))) z := (hL z hz).neg.cexp
    have h3 := h2.mul h1
    convert h3 using 1
    field_simp [hne z hz]
  have hconst : ∀ z ∈ ball a r, Complex.exp (-L z) * g z = Complex.exp (-L a) * g a := by
    intro z hz
    have hd : DifferentiableOn ℂ (fun z => Complex.exp (-L z) * g z) (ball a r) :=
      fun w hw => (hφ w hw).differentiableAt.differentiableWithinAt
    refine (convex_ball a r).is_const_of_fderivWithin_eq_zero hd (fun w hw => ?_) hz
      (mem_ball_self hr)
    rw [fderivWithin_of_isOpen isOpen_ball hw]
    have := (hφ w hw).hasFDerivAt.fderiv
    rw [this]
    ext
    simp
  refine ⟨fun z => Complex.exp ((L z - L a + Complex.log (g a)) / 2), ?_, ?_⟩
  · intro z hz
    have hLd : DifferentiableAt ℂ L z := (hL z hz).differentiableAt
    exact (((hLd.sub_const _).add_const _).div_const _).cexp.differentiableWithinAt
  · intro z hz
    have h := hconst z hz
    rw [← Complex.exp_nat_mul]
    have e1 : ((2 : ℕ) : ℂ) * ((L z - L a + Complex.log (g a)) / 2)
        = (L z - L a) + Complex.log (g a) := by push_cast; ring
    rw [e1, Complex.exp_add, Complex.exp_log hga]
    have e2 : g z = Complex.exp (L z) * (Complex.exp (-L z) * g z) := by
      rw [← mul_assoc, ← Complex.exp_add]; simp
    rw [e2, h, Complex.exp_sub, Complex.exp_neg]
    field_simp


theorem qmap_escape_step (c z : ℂ) (hc : ‖c‖ ≤ 2) (hz : 2 < ‖z‖) :
    4 * (‖z‖ - 2) ≤ ‖qmap c z‖ - 2 := by
  have h1 : ‖z ^ 2‖ - ‖c‖ ≤ ‖z ^ 2 + c‖ := by
    have := norm_sub_norm_le (z ^ 2) (-c)
    simpa [sub_neg_eq_add] using this
  have h2 : ‖z ^ 2‖ = ‖z‖ ^ 2 := norm_pow z 2
  unfold qmap
  nlinarith

theorem qmap_escape_iterate (c z : ℂ) (hc : ‖c‖ ≤ 2) (hz : 2 < ‖z‖) (m : ℕ) :
    4 ^ m * (‖z‖ - 2) ≤ ‖(qmap c)^[m] z‖ - 2 := by
  induction m with
  | zero => simp
  | succ m ih =>
    rw [Function.iterate_succ_apply']
    have hpos : 0 < ‖z‖ - 2 := by linarith
    have h4 : (0 : ℝ) < 4 ^ m := by positivity
    have hgt : 2 < ‖(qmap c)^[m] z‖ := by nlinarith
    have := qmap_escape_step c _ hc hgt
    calc (4 : ℝ) ^ (m + 1) * (‖z‖ - 2) = 4 * (4 ^ m * (‖z‖ - 2)) := by ring
      _ ≤ 4 * (‖(qmap c)^[m] z‖ - 2) := by linarith
      _ ≤ _ := this

theorem qmap_escape_iterate_ge (c z : ℂ) (hc : ‖c‖ ≤ 2) (hz : 2 < ‖z‖) (m : ℕ) :
    ‖z‖ ≤ ‖(qmap c)^[m] z‖ := by
  have h := qmap_escape_iterate c z hc hz m
  have h4 : (1 : ℝ) ≤ 4 ^ m := one_le_pow₀ (by norm_num)
  nlinarith

/-- One inverse branch of the quadratic map along a holomorphic function on a disc
that omits the critical value. -/
theorem qmap_branch_step {c α : ℂ} {r : ℝ} (hr : 0 < r) {h : ℂ → ℂ}
    (hh : DifferentiableOn ℂ h (ball α r)) (hne : ∀ ζ ∈ ball α r, h ζ ≠ c)
    (β : ℂ) (hβ : qmap c β = h α) :
    ∃ h1 : ℂ → ℂ, DifferentiableOn ℂ h1 (ball α r) ∧ (∀ ζ ∈ ball α r, qmap c (h1 ζ) = h ζ) ∧
      h1 α = β ∧ deriv h α = 2 * β * deriv h1 α := by
  have hg : DifferentiableOn ℂ (fun ζ => h ζ - c) (ball α r) := hh.sub_const c
  obtain ⟨s, hs, hsq⟩ := exists_sqrt_on_ball hr hg (fun ζ hζ => sub_ne_zero.mpr (hne ζ hζ))
  have hα : α ∈ ball α r := mem_ball_self hr
  have hsα : s α ^ 2 = β ^ 2 := by
    rw [hsq α hα, ← hβ]; unfold qmap; ring
  have key : ∀ h1 : ℂ → ℂ, DifferentiableOn ℂ h1 (ball α r) →
      (∀ ζ ∈ ball α r, qmap c (h1 ζ) = h ζ) → deriv h α = 2 * h1 α * deriv h1 α := by
    intro h1 hd heq
    have hd1 : HasDerivAt h1 (deriv h1 α) α :=
      (hd.differentiableAt (isOpen_ball.mem_nhds hα)).hasDerivAt
    have hd2 : HasDerivAt (fun ζ => qmap c (h1 ζ)) (2 * h1 α * deriv h1 α) α := by
      have := (hd1.pow 2).add_const c
      simpa [qmap] using this
    have hev : h =ᶠ[nhds α] fun ζ => qmap c (h1 ζ) := by
      filter_upwards [isOpen_ball.mem_nhds hα] with ζ hζ
      exact (heq ζ hζ).symm
    rw [hev.deriv_eq]
    exact hd2.deriv
  rcases sq_eq_sq_iff_eq_or_eq_neg.mp hsα with h1 | h1
  · refine ⟨s, hs, fun ζ hζ => ?_, h1, ?_⟩
    · unfold qmap; rw [hsq ζ hζ]; ring
    · have := key s hs (fun ζ hζ => by unfold qmap; rw [hsq ζ hζ]; ring)
      rw [h1] at this; exact this
  · have hneg : DifferentiableOn ℂ (fun ζ => -s ζ) (ball α r) := hs.neg
    have heq : ∀ ζ ∈ ball α r, qmap c (-s ζ) = h ζ := fun ζ hζ => by
      unfold qmap; rw [neg_sq, hsq ζ hζ]; ring
    refine ⟨fun ζ => -s ζ, hneg, heq, by simp [h1], ?_⟩
    have := key (fun ζ => -s ζ) hneg heq
    simp only [h1, neg_neg] at this
    exact this

/-- Near a point `α0` of a 2-cycle with multiplier of modulus below 1 the second
iterate moves points no further from `α0`. -/
theorem qmap_cycle_contracts {c α0 α1 : ℂ} (h01 : qmap c α0 = α1) (h10 : qmap c α1 = α0)
    (hα0 : ‖α0‖ ≤ 2) (hα1 : ‖α1‖ ≤ 2) (w : ℂ)
    (hw : ‖w‖ < (1 - ‖4 * α0 * α1‖) / 29) :
    ‖qmap c (qmap c (α0 + w)) - α0‖ ≤ ‖w‖ := by
  have hr1 : (1 - ‖4 * α0 * α1‖) / 29 ≤ 1 := by
    have := norm_nonneg (4 * α0 * α1); linarith
  have e : qmap c (qmap c (α0 + w)) - α0
      = w * (4 * α0 * α1 + w * (2 * α1 + (2 * α0 + w) ^ 2)) := by
    have e1 : α1 = α0 ^ 2 + c := by rw [← h01]; rfl
    have e2 : α0 = α1 ^ 2 + c := by rw [← h10]; rfl
    have e3 : qmap c (α0 + w) = α1 + (2 * α0 * w + w ^ 2) := by
      unfold qmap; rw [e1]; ring
    rw [e3]
    unfold qmap
    have e4 : (α1 + (2 * α0 * w + w ^ 2)) ^ 2 + c - α0
        = (α1 ^ 2 + c - α0) + (2 * α1 * (2 * α0 * w + w ^ 2) + (2 * α0 * w + w ^ 2) ^ 2) := by
      ring
    rw [e4, ← e2]
    ring
  rw [e, norm_mul]
  have hw0 : 0 ≤ ‖w‖ := norm_nonneg w
  have h2a0 : ‖2 * α0 + w‖ ≤ 5 := by
    calc ‖2 * α0 + w‖ ≤ ‖2 * α0‖ + ‖w‖ := norm_add_le _ _
      _ = 2 * ‖α0‖ + ‖w‖ := by rw [norm_mul, show ‖(2 : ℂ)‖ = 2 by simp]
      _ ≤ 5 := by linarith
  have h2a1 : ‖2 * α1‖ ≤ 4 := by
    rw [norm_mul, show ‖(2 : ℂ)‖ = 2 by simp]; linarith
  have hin : ‖2 * α1 + (2 * α0 + w) ^ 2‖ ≤ 29 := by
    calc ‖2 * α1 + (2 * α0 + w) ^ 2‖ ≤ ‖2 * α1‖ + ‖(2 * α0 + w) ^ 2‖ := norm_add_le _ _
      _ = ‖2 * α1‖ + ‖2 * α0 + w‖ ^ 2 := by rw [norm_pow]
      _ ≤ 4 + 5 ^ 2 := by
        have := norm_nonneg (2 * α0 + w)
        gcongr
      _ = 29 := by norm_num
  have hfac : ‖4 * α0 * α1 + w * (2 * α1 + (2 * α0 + w) ^ 2)‖ ≤ 1 := by
    calc ‖4 * α0 * α1 + w * (2 * α1 + (2 * α0 + w) ^ 2)‖
        ≤ ‖4 * α0 * α1‖ + ‖w * (2 * α1 + (2 * α0 + w) ^ 2)‖ := norm_add_le _ _
      _ = ‖4 * α0 * α1‖ + ‖w‖ * ‖2 * α1 + (2 * α0 + w) ^ 2‖ := by rw [norm_mul w]
      _ ≤ ‖4 * α0 * α1‖ + ‖w‖ * 29 := by gcongr
      _ ≤ 1 := by linarith
  calc ‖w‖ * ‖4 * α0 * α1 + w * (2 * α1 + (2 * α0 + w) ^ 2)‖ ≤ ‖w‖ * 1 := by gcongr
    _ = ‖w‖ := mul_one _

theorem qmap_cycle_invariant {c α0 α1 : ℂ} (h01 : qmap c α0 = α1) (h10 : qmap c α1 = α0)
    (hα0 : ‖α0‖ ≤ 2) (hα1 : ‖α1‖ ≤ 2) (ζ : ℂ)
    (hζ : ζ ∈ ball α0 ((1 - ‖4 * α0 * α1‖) / 29)) (j : ℕ) :
    (qmap c)^[2 * j] ζ ∈ ball α0 ((1 - ‖4 * α0 * α1‖) / 29) := by
  induction j with
  | zero => simpa using hζ
  | succ j ih =>
    have e : 2 * (j + 1) = (2 * j + 1) + 1 := by ring
    rw [e, Function.iterate_succ_apply', Function.iterate_succ_apply']
    set y := (qmap c)^[2 * j] ζ with hy
    rw [mem_ball, dist_eq_norm] at ih ⊢
    have h := qmap_cycle_contracts h01 h10 hα0 hα1 (y - α0) ih
    rw [add_sub_cancel] at h
    exact lt_of_le_of_lt h ih

theorem qmap_cycle_norm_le {c α0 α1 : ℂ} (hc : ‖c‖ ≤ 2) (h01 : qmap c α0 = α1)
    (h10 : qmap c α1 = α0) : ‖α0‖ ≤ 2 := by
  by_contra hcon
  push_neg at hcon
  have h := qmap_escape_iterate c α0 hc hcon 2
  have e : (qmap c)^[2] α0 = α0 := by
    simp [Function.iterate_succ_apply', h01, h10]
  rw [e] at h
  nlinarith

/-- If the critical orbit never meets the disc `U` around `α0`, every even iterate of
the quadratic map has a holomorphic inverse branch on `U` that fixes `α0`, with
derivative the inverse power of the multiplier. -/
theorem qmap_inverse_branches {c α0 α1 : ℂ} {r : ℝ} (hr : 0 < r) (h01 : qmap c α0 = α1)
    (h10 : qmap c α1 = α0) (hout : ∀ n, (qmap c)^[n] 0 ∉ ball α0 r) (m : ℕ) :
    ∃ h : ℂ → ℂ, DifferentiableOn ℂ h (ball α0 r) ∧
      (∀ ζ ∈ ball α0 r, (qmap c)^[2 * m] (h ζ) = ζ) ∧ h α0 = α0 ∧
      deriv h α0 * (4 * α0 * α1) ^ m = 1 := by
  induction m with
  | zero =>
    refine ⟨id, differentiableOn_id, fun ζ _ => by simp, rfl, by simp⟩
  | succ m ih =>
    obtain ⟨h, hd, hinv, hfix, hder⟩ := ih
    have hc0 : qmap c 0 = c := by simp [qmap]
    have hne : ∀ ζ ∈ ball α0 r, h ζ ≠ c := by
      intro ζ hζ hcon
      apply hout (2 * m + 1)
      have e := hinv ζ hζ
      rw [hcon] at e
      rw [Function.iterate_succ_apply, hc0, e]
      exact hζ
    obtain ⟨h1, hd1, hinv1, hfix1, hder1⟩ :=
      qmap_branch_step hr hd hne α1 (by rw [h10, hfix])
    have hne1 : ∀ ζ ∈ ball α0 r, h1 ζ ≠ c := by
      intro ζ hζ hcon
      apply hout (2 * m + 2)
      have e1 := hinv1 ζ hζ
      rw [hcon] at e1
      have e := hinv ζ hζ
      rw [← e1] at e
      rw [Function.iterate_succ_apply, Function.iterate_succ_apply, hc0, e]
      exact hζ
    obtain ⟨h2, hd2, hinv2, hfix2, hder2⟩ :=
      qmap_branch_step hr hd1 hne1 α0 (by rw [h01, hfix1])
    refine ⟨h2, hd2, fun ζ hζ => ?_, hfix2, ?_⟩
    · have e : 2 * (m + 1) = (2 * m + 1) + 1 := by ring
      rw [e, Function.iterate_succ_apply, Function.iterate_succ_apply, hinv2 ζ hζ, hinv1 ζ hζ,
        hinv ζ hζ]
    · rw [hder1, hder2] at hder
      rw [← hder]
      ring

/-- A parameter with a 2-cycle (possibly a fixed point counted twice) whose
multiplier has modulus below 1 has a critical orbit inside the disc
of radius 2. -/
theorem qmap_critical_orbit_bounded {c : ℂ} (α0 α1 : ℂ) (hc : ‖c‖ ≤ 2) (h01 : qmap c α0 = α1)
    (h10 : qmap c α1 = α0) (hl1 : ‖4 * α0 * α1‖ < 1) (k : ℕ) :
    ‖(qmap c)^[k] 0‖ ≤ 2 := by
  by_contra hcon
  push_neg at hcon
  have hα0 : ‖α0‖ ≤ 2 := qmap_cycle_norm_le hc h01 h10
  have hα1 : ‖α1‖ ≤ 2 := qmap_cycle_norm_le hc h10 h01
  set r : ℝ := (1 - ‖4 * α0 * α1‖) / 29 with hrdef
  have hr : 0 < r := by rw [hrdef]; linarith
  have hr1 : r < 1 := by
    have := norm_nonneg (4 * α0 * α1)
    rw [hrdef]; linarith
  have hball : ∀ ζ ∈ ball α0 r, ‖ζ‖ < 3 := by
    intro ζ hζ
    rw [mem_ball, dist_eq_norm] at hζ
    calc ‖ζ‖ = ‖α0 + (ζ - α0)‖ := by rw [add_sub_cancel]
      _ ≤ ‖α0‖ + ‖ζ - α0‖ := norm_add_le _ _
      _ < 3 := by linarith
  -- the critical orbit never meets the disc
  have hout : ∀ n, (qmap c)^[n] 0 ∉ ball α0 r := by
    intro n hn
    have hpos : 0 < ‖(qmap c)^[k] 0‖ - 2 := by linarith
    obtain ⟨j, hj⟩ := pow_unbounded_of_one_lt (1 / (‖(qmap c)^[k] 0‖ - 2)) (by norm_num : (1 : ℝ) < 4)
    have hj1 : 1 < 4 ^ j * (‖(qmap c)^[k] 0‖ - 2) := by
      rw [div_lt_iff₀ hpos] at hj; exact hj
    have hin := qmap_cycle_invariant h01 h10 hα0 hα1 _ hn (j + k)
    have hlt := hball _ hin
    rw [← Function.iterate_add_apply] at hlt
    have e : 2 * (j + k) + n = (n + 2 * j + k) + k := by ring
    rw [e, Function.iterate_add_apply] at hlt
    have hes := qmap_escape_iterate c _ hc hcon (n + 2 * j + k)
    have hmono : (4 : ℝ) ^ j ≤ 4 ^ (n + 2 * j + k) :=
      pow_le_pow_right₀ (by norm_num) (by omega)
    nlinarith
  -- the inverse branches are bounded by 3 on the disc
  have hbound : ∀ m (h : ℂ → ℂ), (∀ ζ ∈ ball α0 r, (qmap c)^[2 * m] (h ζ) = ζ) →
      ∀ ζ ∈ ball α0 r, ‖h ζ‖ ≤ 3 := by
    intro m h hinv ζ hζ
    by_contra hgt
    push_neg at hgt
    have h2 : 2 < ‖h ζ‖ := by linarith
    have := qmap_escape_iterate_ge c (h ζ) hc h2 (2 * m)
    rw [hinv ζ hζ] at this
    have := hball ζ hζ
    linarith
  -- Cauchy estimate against the growth of the derivatives
  obtain ⟨m, hm⟩ := exists_pow_lt_of_lt_one (show 0 < r / 6 by positivity) hl1
  obtain ⟨h, hd, hinv, -, hder⟩ := qmap_inverse_branches hr h01 h10 hout m
  have hsub : closedBall α0 (r / 2) ⊆ ball α0 r := closedBall_subset_ball (by linarith)
  have hC : ‖deriv h α0‖ ≤ 3 / (r / 2) := by
    refine Complex.norm_deriv_le_of_forall_mem_sphere_norm_le (by positivity)
      (hd.diffContOnCl_ball hsub) (fun z hz => ?_)
    exact hbound m h hinv z (hsub (sphere_subset_closedBall hz))
  have hn1 : ‖deriv h α0‖ * ‖4 * α0 * α1‖ ^ m = 1 := by
    rw [← norm_pow, ← norm_mul, hder, norm_one]
  have hpow0 : 0 ≤ ‖4 * α0 * α1‖ ^ m := by positivity
  have : ‖deriv h α0‖ * ‖4 * α0 * α1‖ ^ m < 1 := by
    calc ‖deriv h α0‖ * ‖4 * α0 * α1‖ ^ m ≤ 3 / (r / 2) * ‖4 * α0 * α1‖ ^ m := by gcongr
      _ < 3 / (r / 2) * (r / 6) := by
        have : 0 < 3 / (r / 2) := by positivity
        gcongr
      _ = 1 := by field_simp; ring
  linarith

theorem qmap_iterate_continuous (n : ℕ) : Continuous fun c : ℂ => (qmap c)^[n] 0 := by
  induction n with
  | zero => simpa using continuous_const
  | succ n ih =>
    have : (fun c : ℂ => (qmap c)^[n + 1] 0) = fun c => ((qmap c)^[n] 0) ^ 2 + c := by
      funext c
      rw [Function.iterate_succ_apply']
      rfl
    rw [this]
    exact (ih.pow 2).add continuous_id

/-- A bound on the critical orbit along a path of parameters, for the times in
`[0, 1)`, extends to the end point of the path. -/
theorem qmap_bounded_at_end (γ : ℝ → ℂ) (hγ : Continuous γ)
    (h : ∀ t : ℝ, 0 ≤ t → t < 1 → ∀ n, ‖(qmap (γ t))^[n] 0‖ ≤ 2) (n : ℕ) :
    ‖(qmap (γ 1))^[n] 0‖ ≤ 2 := by
  have hcont : Continuous fun t : ℝ => ‖(qmap (γ t))^[n] 0‖ :=
    ((qmap_iterate_continuous n).comp hγ).norm
  have hclosed : IsClosed {t : ℝ | ‖(qmap (γ t))^[n] 0‖ ≤ 2} :=
    isClosed_le hcont continuous_const
  have hsub : Set.Ico (0 : ℝ) 1 ⊆ {t : ℝ | ‖(qmap (γ t))^[n] 0‖ ≤ 2} :=
    fun t ht => h t ht.1 ht.2 n
  have hcl := closure_minimal hsub hclosed
  rw [closure_Ico (by norm_num : (0 : ℝ) ≠ 1)] at hcl
  exact hcl (Set.right_mem_Icc.mpr zero_le_one)

/-- Parameters `μ/2 - μ^2/4` with `|μ| ≤ 1`, the closed main cardioid, have a critical
orbit inside the disc of radius 2. -/
theorem qmap_cardioid_bounded (μ : ℂ) (hμ : ‖μ‖ ≤ 1) (n : ℕ) :
    ‖(qmap (μ / 2 - μ ^ 2 / 4))^[n] 0‖ ≤ 2 := by
  have key := qmap_bounded_at_end (fun t : ℝ => ((t : ℂ) * μ) / 2 - ((t : ℂ) * μ) ^ 2 / 4)
    (by continuity) (fun t ht0 ht1 k => ?_) n
  · simpa using key
  · have hn : ‖(t : ℂ) * μ‖ < 1 := by
      rw [norm_mul, Complex.norm_real, Real.norm_of_nonneg ht0]
      have := norm_nonneg μ
      nlinarith
    have hn0 : 0 ≤ ‖(t : ℂ) * μ‖ := norm_nonneg _
    refine qmap_critical_orbit_bounded ((t : ℂ) * μ / 2) ((t : ℂ) * μ / 2)
      ?_ ?_ ?_ ?_ k
    · calc ‖(t : ℂ) * μ / 2 - ((t : ℂ) * μ) ^ 2 / 4‖
          ≤ ‖(t : ℂ) * μ / 2‖ + ‖((t : ℂ) * μ) ^ 2 / 4‖ := norm_sub_le _ _
        _ = ‖(t : ℂ) * μ‖ / 2 + ‖(t : ℂ) * μ‖ ^ 2 / 4 := by
          rw [norm_div, norm_div, norm_pow]; simp
        _ ≤ 2 := by nlinarith
    · unfold qmap; ring
    · unfold qmap; ring
    · have e : 4 * ((t : ℂ) * μ / 2) * ((t : ℂ) * μ / 2) = ((t : ℂ) * μ) ^ 2 := by ring
      rw [e, norm_pow]
      nlinarith

/-- Parameters `-1 + δ` with `|δ| ≤ 1/4`, the closed period-2 disc, have a critical
orbit inside the disc of radius 2. -/
theorem qmap_bulb_bounded (δ : ℂ) (hδ : ‖δ‖ ≤ 1 / 4) (n : ℕ) :
    ‖(qmap (-1 + δ))^[n] 0‖ ≤ 2 := by
  have key := qmap_bounded_at_end (fun t : ℝ => -1 + (t : ℂ) * δ)
    (by continuity) (fun t ht0 ht1 k => ?_) n
  · simpa using key
  · have hn : ‖(t : ℂ) * δ‖ < 1 / 4 := by
      rw [norm_mul, Complex.norm_real, Real.norm_of_nonneg ht0]
      have := norm_nonneg δ
      nlinarith
    obtain ⟨s, hs⟩ := IsAlgClosed.exists_pow_nat_eq (1 - 4 * ((t : ℂ) * δ)) (n := 2) (by norm_num)
    refine qmap_critical_orbit_bounded ((-1 + s) / 2) ((-1 - s) / 2)
      ?_ ?_ ?_ ?_ k
    · calc ‖-1 + (t : ℂ) * δ‖ ≤ ‖(-1 : ℂ)‖ + ‖(t : ℂ) * δ‖ := norm_add_le _ _
        _ ≤ 2 := by
          rw [norm_neg, norm_one]; linarith
    · unfold qmap
      have : ((-1 + s) / 2) ^ 2 = (1 - 2 * s + s ^ 2) / 4 := by ring
      rw [this, hs]; ring
    · unfold qmap
      have : ((-1 - s) / 2) ^ 2 = (1 + 2 * s + s ^ 2) / 4 := by ring
      rw [this, hs]; ring
    · have e : 4 * ((-1 + s) / 2) * ((-1 - s) / 2) = 1 - s ^ 2 := by ring
      rw [e, hs]
      have e2 : (1 : ℂ) - (1 - 4 * ((t : ℂ) * δ)) = 4 * ((t : ℂ) * δ) := by ring
      rw [e2, norm_mul]
      have : ‖(4 : ℂ)‖ = 4 := by simp
      rw [this]; linarith

/-- The cardioid inequality in real coordinates places the parameter in the closed
main cardioid `{μ/2 - μ^2/4 : |μ| ≤ 1}`. -/
theorem exists_multiplier_of_cardioid (x y : ℝ)
    (h : ((x - 1 / 4) ^ 2 + y ^ 2) * (((x - 1 / 4) ^ 2 + y ^ 2) + (x - 1 / 4)) ≤ (1 / 4) * y ^ 2) :
    ∃ μ : ℂ, ‖μ‖ ≤ 1 ∧ (⟨x, y⟩ : ℂ) = μ / 2 - μ ^ 2 / 4 := by
  obtain ⟨s0, hs0⟩ := IsAlgClosed.exists_pow_nat_eq (1 - 4 * (⟨x, y⟩ : ℂ)) (n := 2) (by norm_num)
  -- choose the root with nonnegative real part
  obtain ⟨s, hs, hre⟩ : ∃ s : ℂ, s ^ 2 = 1 - 4 * (⟨x, y⟩ : ℂ) ∧ 0 ≤ s.re := by
    rcases le_total 0 s0.re with h0 | h0
    · exact ⟨s0, hs0, h0⟩
    · exact ⟨-s0, by rw [neg_sq]; exact hs0, by simpa using h0⟩
  refine ⟨1 - s, ?_, ?_⟩
  · have hre2 : s.re ^ 2 - s.im ^ 2 = 1 - 4 * x := by
      have := congrArg Complex.re hs
      simpa [sq, Complex.mul_re] using this
    have him2 : 2 * s.re * s.im = -(4 * y) := by
      have := congrArg Complex.im hs
      simp [sq, Complex.mul_im] at this
      linarith
    set a := s.re with ha
    set b := s.im with hb
    have hx : x - 1 / 4 = (b ^ 2 - a ^ 2) / 4 := by linarith
    have hy : y = -(a * b) / 2 := by linarith
    have hfac : ((a ^ 2 + b ^ 2) ^ 2 - 4 * a ^ 2) * ((a ^ 2 + b ^ 2) ^ 2 + 4 * b ^ 2) ≤ 0 := by
      rw [hx, hy] at h
      nlinarith [h]
    have hρ : a ^ 2 + b ^ 2 ≤ 2 * a := by
      by_contra hcon
      push_neg at hcon
      have hρpos : 0 < a ^ 2 + b ^ 2 := lt_of_le_of_lt (by positivity) hcon
      have h1 : 0 < (a ^ 2 + b ^ 2) ^ 2 - 4 * a ^ 2 := by nlinarith
      have h2 : 0 < (a ^ 2 + b ^ 2) ^ 2 + 4 * b ^ 2 := by positivity
      nlinarith [mul_pos h1 h2]
    have hnorm : ‖1 - s‖ ^ 2 = (1 - a) ^ 2 + b ^ 2 := by
      rw [Complex.norm_eq_abs, Complex.sq_abs, Complex.normSq_apply]
      simp [ha, hb]; ring
    have : ‖1 - s‖ ^ 2 ≤ 1 := by rw [hnorm]; nlinarith
    have h0 : 0 ≤ ‖1 - s‖ := norm_nonneg _
    nlinarith
  · have e : (1 - s) / 2 - (1 - s) ^ 2 / 4 = (1 - s ^ 2) / 4 := by ring
    rw [e, hs]; ring

end Dynamics

/-! ## Shortcut consistency (C4) -/

theorem toComplex_orbit (C : ncomplex) (n : ℕ) :
    (qmap C.toComplex)^[n] 0 = (orbit C n).toComplex := by
  induction n with
  | zero =>
    apply Complex.ext <;> simp [orbit, ncomplex.toComplex]
  | succ n ih =>
    rw [Function.iterate_succ_apply', ih]
    apply Complex.ext
    · simp [orbit, qmap, ncomplex.toComplex, ncomplex.mul, ncomplex.add, sq, Complex.mul_re]
    · simp [orbit, qmap, ncomplex.toComplex, ncomplex.mul, ncomplex.add, sq, Complex.mul_im]

/-- A bound on the complex modulus of an iterate bounds both rational components. -/
theorem not_escapes_of_norm_le (Z : ncomplex) (h : ‖Z.toComplex‖ ≤ 2) : ¬ escapes Z := by
  have hre : |(Z.re : ℝ)| ≤ 2 := by
    have := Complex.abs_re_le_abs Z.toComplex
    simp only [ncomplex.toComplex] at this
    exact le_trans this h
  have him : |(Z.im : ℝ)| ≤ 2 := by
    have := Complex.abs_im_le_abs Z.toComplex
    simp only [ncomplex.toComplex] at this
    exact le_trans this h
  unfold escapes
  simp only [ESCAPE_BOUNDARY, gt_iff_lt, not_or, not_lt]
  constructor
  · exact_mod_cast hre
  · exact_mod_cast him

/-- On the fast path of `CalculatePoint` no iterate of the plain iteration passes the
escape test: the closed main cardioid and the closed period-2 disc lie in the
Mandelbrot set. -/
theorem not_escapes_orbit_of_shortcut (x y : ℚ) (hs : shortcut x y) (n : ℕ) :
    ¬ escapes (orbit { re := x, im := y } n) := by
  apply not_escapes_of_norm_le
  rw [← toComplex_orbit]
  unfold shortcut at hs
  simp only [QUARTER, SIXTEENTH] at hs
  rcases hs with hb | hc
  · -- period-2 disc
    have hbR : ((x : ℝ) + 1) * ((x : ℝ) + 1) + (y : ℝ) * (y : ℝ) ≤ 1 / 16 := by
      have h1 := (Rat.cast_le (K := ℝ)).mpr hb
      push_cast at h1
      linarith
    have hδ : ‖(⟨(x : ℝ) + 1, (y : ℝ)⟩ : ℂ)‖ ≤ 1 / 4 := by
      have hsq : ‖(⟨(x : ℝ) + 1, (y : ℝ)⟩ : ℂ)‖ ^ 2 = ((x : ℝ) + 1) * ((x : ℝ) + 1) + (y : ℝ) * (y : ℝ) := by
        rw [Complex.norm_eq_abs, Complex.sq_abs, Complex.normSq_apply]
      have h0 : 0 ≤ ‖(⟨(x : ℝ) + 1, (y : ℝ)⟩ : ℂ)‖ := norm_nonneg _
      nlinarith
    have hc : ncomplex.toComplex { re := x, im := y } = -1 + (⟨(x : ℝ) + 1, (y : ℝ)⟩ : ℂ) := by
      apply Complex.ext <;> simp [ncomplex.toComplex]
    rw [hc]
    exact qmap_bulb_bounded _ hδ n
  · -- main cardioid
    have hcR : (((x : ℝ) - 1 / 4) * ((x : ℝ) - 1 / 4) + (y : ℝ) * (y : ℝ)) *
        ((((x : ℝ) - 1 / 4) * ((x : ℝ) - 1 / 4) + (y : ℝ) * (y : ℝ)) + ((x : ℝ) - 1 / 4))
        ≤ (y : ℝ) * (y : ℝ) * (1 / 4) := by
      have h1 := (Rat.cast_le (K := ℝ)).mpr hc
      push_cast at h1
      linarith
    obtain ⟨μ, hμ, hcμ⟩ := exists_multiplier_of_cardioid (x : ℝ) (y : ℝ) (by
      calc (((x : ℝ) - 1 / 4) ^ 2 + (y : ℝ) ^ 2) * ((((x : ℝ) - 1 / 4) ^ 2 + (y : ℝ) ^ 2) + ((x : ℝ) - 1 / 4))
          = (((x : ℝ) - 1 / 4) * ((x : ℝ) - 1 / 4) + (y : ℝ) * (y : ℝ)) *
            ((((x : ℝ) - 1 / 4) * ((x : ℝ) - 1 / 4) + (y : ℝ) * (y : ℝ)) + ((x : ℝ) - 1 / 4)) := by ring
        _ ≤ (y : ℝ) * (y : ℝ) * (1 / 4) := hcR
        _ = (1 / 4) * (y : ℝ) ^ 2 := by ring)
    have hc2 : ncomplex.toComplex { re := x, im := y } = μ / 2 - μ ^ 2 / 4 := by
      rw [← hcμ]; rfl
    rw [hc2]
    exact qmap_cardioid_bounded μ hμ n

theorem classifyNoShortcut_of_shortcut (x y : ℚ) (hs : shortcut x y) :
    classifyNoShortcut x y = EscapeResult.Bounded := by
  have hnone : iterLoop { re := x, im := y } MAX_ITERS { re := 0, im := 0 } 0 = none :=
    (iterLoop_start_none _).mpr fun j _ => not_escapes_orbit_of_shortcut x y hs (j + 1)
  unfold classifyNoShortcut
  rw [hnone]

theorem classifyNoShortcut_eq_classify (x y : ℚ) : classifyNoShortcut x y = classify x y := by
  by_cases hs : shortcut x y
  · rw [classifyNoShortcut_of_shortcut x y hs, classify_of_shortcut x y hs]
  · unfold classifyNoShortcut classify
    rw [if_neg hs]

/-- C4: for every `c = (x, y)` satisfying the cardioid or the bulb inequality, the plain
iteration `z <- z^2 + c` from `z = 0` never produces an iterate with `|Re z| > 2` or
`|Im z| > 2` (at any step, in particular within the first `MAX_ITERS = 100`); the
classifier with the fast-path test removed returns `Bounded`, the same result as
`CalculatePoint`, on every such `c`; so the two classifiers, and the points they
yield, agree on all inputs. -/
theorem shortcut_consistency (x y : ℚ)
    (h : ((x - 1 / 4) ^ 2 + y ^ 2) * (((x - 1 / 4) ^ 2 + y ^ 2) + (x - 1 / 4)) ≤ (1 / 4) * y ^ 2 ∨
      (x + 1) ^ 2 + y ^ 2 ≤ 1 / 16) :
    (∀ n, ¬ (|(orbit { re := x, im := y } n).re| > 2 ∨
        |(orbit { re := x, im := y } n).im| > 2)) ∧
      classifyNoShortcut x y = EscapeResult.Bounded ∧
      classify x y = EscapeResult.Bounded ∧
      (∀ u v : ℚ, classifyNoShortcut u v = classify u v ∧
        ({ X := u, Y := v, Color := colorOf { re := u, im := v } (classifyNoShortcut u v) } : Point)
          = CalculatePoint u v) := by
  have hs : shortcut x y := by
    unfold shortcut
    simp only [QUARTER, SIXTEENTH]
    rcases h with h | h
    · right
      calc ((x - 1 / 4) * (x - 1 / 4) + y * y) * ((x - 1 / 4) * (x - 1 / 4) + y * y + (x - 1 / 4))
          = ((x - 1 / 4) ^ 2 + y ^ 2) * (((x - 1 / 4) ^ 2 + y ^ 2) + (x - 1 / 4)) := by ring
        _ ≤ (1 / 4) * y ^ 2 := h
        _ = y * y * (1 / 4) := by ring
    · left
      calc (x + 1) * (x + 1) + y * y = (x + 1) ^ 2 + y ^ 2 := by ring
        _ ≤ 1 / 16 := h
  refine ⟨fun n => ?_, classifyNoShortcut_of_shortcut x y hs, classify_of_shortcut x y hs,
    fun u v => ⟨classifyNoShortcut_eq_classify u v, ?_⟩⟩
  · have := not_escapes_orbit_of_shortcut x y hs n
    unfold escapes at this
    simpa only [ESCAPE_BOUNDARY] using this
  · rw [classifyNoShortcut_eq_classify, CalculatePoint_eq]

/-- Witness of C4 at `c = 0 + 0i`, inside the main cardioid. -/
theorem shortcut_consistency_witness :
    classifyNoShortcut 0 0 = EscapeResult.Bounded ∧ classify 0 0 = EscapeResult.Bounded :=
  ⟨(shortcut_consistency 0 0 (by norm_num)).2.1, (shortcut_consistency 0 0 (by norm_num)).2.2.1⟩

/-! ## The pixel index of a sample -/

theorem mul_pred_div (col W : Nat) (h : col < W) : col * (W - 1) / W = col - 1 := by
  obtain ⟨w, rfl⟩ : ∃ w, W = w + 1 := ⟨W - 1, by omega⟩
  rcases col with _ | c
  · simp
  · have hc : c < w := by omega
    simp only [Nat.add_sub_cancel]
    apply Nat.div_eq_of_lt_le
    · nlinarith
    · nlinarith

theorem toUInt64_natCast (n : Nat) : toUInt64 (n : ℤ) = n % 2 ^ 64 := by
  unfold toUInt64
  have : ((n : ℤ) % (2 ^ 64 : ℤ)) = ((n % 2 ^ 64 : Nat) : ℤ) := by
    push_cast; rfl
  rw [this, Int.toNat_natCast]

/-- The column ratio that `main` computes for the sample of column `col`: the factor
`FRAME_W - 1` of the placement meets the divisor `FRAME_W` of the sampling. -/
theorem PixelX_sampleAt (W H : Nat) (U B : Vector2) (col row : Nat) (hx : U.X ≠ B.X)
    (hW : 0 < W) :
    PixelX W U B (sampleAt W H U B col row) = ((col * (W - 1) : Nat) : ℚ) / ((W : Nat) : ℚ) := by
  have hne : B.X - U.X ≠ 0 := sub_ne_zero.mpr (Ne.symm hx)
  have hW0 : (W : ℚ) ≠ 0 := Nat.cast_ne_zero.mpr (by omega)
  have hcast : (((W : ℤ) - 1 : ℤ) : ℚ) = (W : ℚ) - 1 := by push_cast; ring
  simp only [PixelX, sampleAt, CalculatePoint_X, PointX, DeltaX, hcast]
  rw [Nat.cast_mul, Nat.cast_sub (by omega : 1 ≤ W)]
  push_cast
  field_simp
  ring

theorem PixelY_sampleAt (W H : Nat) (U B : Vector2) (col row : Nat) (hy : U.Y ≠ B.Y)
    (hH : 0 < H) :
    PixelY H U B (sampleAt W H U B col row) = ((row * (H - 1) : Nat) : ℚ) / ((H : Nat) : ℚ) := by
  have hne : B.Y - U.Y ≠ 0 := sub_ne_zero.mpr (Ne.symm hy)
  have hH0 : (H : ℚ) ≠ 0 := Nat.cast_ne_zero.mpr (by omega)
  have hcast : (((H : ℤ) - 1 : ℤ) : ℚ) = (H : ℚ) - 1 := by push_cast; ring
  simp only [PixelY, sampleAt, CalculatePoint_Y, PointY, DeltaY, hcast]
  rw [Nat.cast_mul, Nat.cast_sub (by omega : 1 ≤ H)]
  push_cast
  field_simp
  ring

theorem floor_PixelX_sampleAt (W H : Nat) (U B : Vector2) (col row : Nat) (hx : U.X ≠ B.X)
    (hcol : col < W) :
    ⌊PixelX W U B (sampleAt W H U B col row)⌋ = ((col - 1 : Nat) : ℤ) := by
  rw [PixelX_sampleAt W H U B col row hx (by omega), Rat.floor_natCast_div_natCast,
    ← mul_pred_div col W hcol]
  norm_cast

theorem floor_PixelY_sampleAt (W H : Nat) (U B : Vector2) (col row : Nat) (hy : U.Y ≠ B.Y)
    (hrow : row < H) :
    ⌊PixelY H U B (sampleAt W H U B col row)⌋ = ((row - 1 : Nat) : ℤ) := by
  rw [PixelY_sampleAt W H U B col row hy (by omega), Rat.floor_natCast_div_natCast,
    ← mul_pred_div row H hrow]
  norm_cast

/-- The index that `main` derives for the sample of the pixel `(col, row)`, with the
`uint64_t` wrap of the model. -/
theorem Index_sampleAt (W H : Nat) (U B : Vector2) (col row : Nat) (hx : U.X ≠ B.X)
    (hy : U.Y ≠ B.Y) (hcol : col < W) (hrow : row < H) :
    Index W H U B (sampleAt W H U B col row) =
      (((row - 1) % 2 ^ 64) * W + (col - 1) % 2 ^ 64) % 2 ^ 64 := by
  simp only [Index, planeToPixel, floor_PixelX_sampleAt W H U B col row hx hcol,
    floor_PixelY_sampleAt W H U B col row hy hrow, toUInt64_natCast]

theorem Index_sampleAt_lt (W H : Nat) (U B : Vector2) (col row : Nat) (hx : U.X ≠ B.X)
    (hy : U.Y ≠ B.Y) (hcol : col < W) (hrow : row < H) :
    Index W H U B (sampleAt W H U B col row) < W * H := by
  rw [Index_sampleAt W H U B col row hx hy hcol hrow]
  have h1 : (row - 1) % 2 ^ 64 ≤ H - 1 := le_trans (Nat.mod_le _ _) (by omega)
  have h2 : (col - 1) % 2 ^ 64 ≤ W - 1 := le_trans (Nat.mod_le _ _) (by omega)
  have h3 : (row - 1) % 2 ^ 64 * W ≤ (H - 1) * W := Nat.mul_le_mul_right W h1
  have h4 : (H - 1) * W + W = W * H := by
    obtain ⟨h, rfl⟩ : ∃ h, H = h + 1 := ⟨H - 1, by omega⟩
    simp only [Nat.add_sub_cancel]; ring
  calc (((row - 1) % 2 ^ 64) * W + (col - 1) % 2 ^ 64) % 2 ^ 64
      ≤ ((row - 1) % 2 ^ 64) * W + (col - 1) % 2 ^ 64 := Nat.mod_le _ _
    _ < W * H := by omega

theorem Index_sampleAt_small (W H : Nat) (U B : Vector2) (col row : Nat) (hx : U.X ≠ B.X)
    (hy : U.Y ≠ B.Y) (hcol : col < W) (hrow : row < H) (hW : W < 65536) (hH : H < 65536) :
    Index W H U B (sampleAt W H U B col row) = (row - 1) * W + (col - 1) := by
  rw [Index_sampleAt W H U B col row hx hy hcol hrow]
  have h1 : (row - 1) % 2 ^ 64 = row - 1 := Nat.mod_eq_of_lt (by omega)
  have h2 : (col - 1) % 2 ^ 64 = col - 1 := Nat.mod_eq_of_lt (by omega)
  rw [h1, h2]
  apply Nat.mod_eq_of_lt
  have h3 : (row - 1) * W ≤ 65535 * 65535 :=
    Nat.mul_le_mul (by omega) (by omega)
  omega

/-! ## The assembly loop of main -/

/-- A slot that is the derived index of no sample keeps its content. -/
theorem assemble_of_no_write (W H : Nat) (U B : Vector2) :
    ∀ (pts : List Point) (mem : Nat → RGB) (s : Nat),
      (∀ (k : Nat) (Q : Point), pts[k]? = some Q → Index W H U B Q ≠ s) →
      assemble W H U B pts mem s = mem s := by
  intro pts
  induction pts with
  | nil => intro mem s _; rfl
  | cons A rest ih =>
    intro mem s h
    simp only [assemble]
    rw [ih _ s (fun k Q hk => h (k + 1) Q (by simpa using hk))]
    have hA : Index W H U B A ≠ s := h 0 A (by simp)
    simp only [if_neg (Ne.symm hA)]

/-- A slot holds the colour of the last sample in the list whose derived index it is. -/
theorem assemble_of_last_write (W H : Nat) (U B : Vector2) :
    ∀ (pts : List Point) (mem : Nat → RGB) (s j : Nat) (P : Point),
      pts[j]? = some P → Index W H U B P = s →
      (∀ (k : Nat) (Q : Point), j < k → pts[k]? = some Q → Index W H U B Q ≠ s) →
      assemble W H U B pts mem s = P.Color := by
  intro pts
  induction pts with
  | nil => intro mem s j P hj; simp at hj
  | cons A rest ih =>
    intro mem s j P hj hP hlater
    simp only [assemble]
    rcases j with _ | j
    · have hA : A = P := by simpa using hj
      rw [assemble_of_no_write W H U B rest _ s
        (fun k Q hk => hlater (k + 1) Q (Nat.succ_pos k) (by simpa using hk))]
      simp only [hA, hP, if_true]
    · exact ih _ s j P (by simpa using hj) hP
        (fun k Q hjk hk => hlater (k + 1) Q (by omega) (by simpa using hk))

/-! ## What MakeFrame returns, for any fuel -/

/-- Whenever the inner loop returns, it has appended the rest of the row. -/
theorem innerLoop_result (W H : Nat) (U B : Vector2) (Y : Nat) (hW : W < 65536) :
    ∀ (fuel X : Nat) (L pts res : List Point), X ≤ W →
      IsSampled W H U B (Y * W + X) pts →
      innerLoop W H U B Y fuel X (L ++ pts) = some res →
      ∃ pts1, res = L ++ pts1 ∧ IsSampled W H U B (Y * W + W) pts1 := by
  intro fuel
  induction fuel with
  | zero => intro X L pts res _ _ h; simp [innerLoop] at h
  | succ fuel ih =>
    intro X L pts res hX hs h
    by_cases hXW : X = W
    · simp only [innerLoop, hXW, ne_eq, not_true_eq_false, if_false, Option.some.injEq] at h
      exact ⟨pts, h.symm, hXW ▸ hs⟩
    · have hlt : X < W := by omega
      have hwrap : (X + 1) % 65536 = X + 1 := Nat.mod_eq_of_lt (by omega)
      simp only [innerLoop, ne_eq, hXW, not_false_eq_true, if_true, hwrap] at h
      rw [List.append_assoc] at h
      exact ih (X + 1) L _ res (by omega) (IsSampled_snoc W H U B X Y pts hlt hs) h

/-- With a width beyond the 16-bit range the inner loop never returns. -/
theorem innerLoop_diverges_of_ge (W H : Nat) (U B : Vector2) (Y : Nat) (hW : 65536 ≤ W) :
    ∀ (fuel X : Nat) (L : List Point), X < 65536 →
      innerLoop W H U B Y fuel X L = none := by
  intro fuel
  induction fuel with
  | zero => intro X L _; rfl
  | succ fuel ih =>
    intro X L hX
    have hne : X ≠ W := by omega
    simp only [innerLoop, ne_eq, hne, not_false_eq_true, if_true]
    exact ih _ _ (Nat.mod_lt _ (by norm_num))

/-- With a height beyond the 16-bit range the outer loop never returns. -/
theorem outerLoop_diverges_of_ge (W H : Nat) (U B : Vector2) (innerFuel : Nat)
    (hH : 65536 ≤ H) :
    ∀ (fuel Y : Nat) (L : List Point), Y < 65536 →
      outerLoop W H U B innerFuel fuel Y L = none := by
  intro fuel
  induction fuel with
  | zero => intro Y L _; rfl
  | succ fuel ih =>
    intro Y L hY
    have hne : Y ≠ H := by omega
    simp only [outerLoop, ne_eq, hne, not_false_eq_true, if_true]
    cases innerLoop W H U B Y innerFuel 0 L with
    | none => rfl
    | some L1 => exact ih _ _ (Nat.mod_lt _ (by norm_num))

/-- Whenever the outer loop returns, it has appended the remaining rows. -/
theorem outerLoop_result (W H : Nat) (U B : Vector2) (innerFuel : Nat) (hW : W < 65536)
    (hH : H < 65536) :
    ∀ (fuel Y : Nat) (L pts res : List Point), Y ≤ H →
      IsSampled W H U B (Y * W) pts →
      outerLoop W H U B innerFuel fuel Y (L ++ pts) = some res →
      ∃ pts1, res = L ++ pts1 ∧ IsSampled W H U B (H * W) pts1 := by
  intro fuel
  induction fuel with
  | zero => intro Y L pts res _ _ h; simp [outerLoop] at h
  | succ fuel ih =>
    intro Y L pts res hY hs h
    by_cases hYH : Y = H
    · simp only [outerLoop, hYH, ne_eq, not_true_eq_false, if_false, Option.some.injEq] at h
      exact ⟨pts, h.symm, hYH ▸ hs⟩
    · have hlt : Y < H := by omega
      have hwrap : (Y + 1) % 65536 = Y + 1 := Nat.mod_eq_of_lt (by omega)
      simp only [outerLoop, ne_eq, hYH, not_false_eq_true, if_true, hwrap] at h
      cases hrow : innerLoop W H U B Y innerFuel 0 (L ++ pts) with
      | none => rw [hrow] at h; cases h
      | some L1 =>
        rw [hrow] at h
        obtain ⟨row, hL1, hrs⟩ :=
          innerLoop_result W H U B Y hW innerFuel 0 L pts L1 (Nat.zero_le _) hs hrow
        have hrs1 : IsSampled W H U B ((Y + 1) * W) row := by
          rw [Nat.add_mul, Nat.one_mul]; exact hrs
        rw [hL1] at h
        exact ih (Y + 1) L row res (by omega) hrs1 h

/-- Whenever `MakeFrame` returns for a frame with at least one row, both dimensions
fit the 16-bit counters and the list holds the `H * W` samples in row-major order. -/
theorem MakeFrame_result (fuel W H : Nat) (U B : Vector2) (L res : List Point) (hH : 0 < H)
    (h : MakeFrame fuel W H U B L = some res) :
    W < 65536 ∧ H < 65536 ∧ ∃ pts, res = L ++ pts ∧ IsSampled W H U B (H * W) pts := by
  unfold MakeFrame at h
  have hH16 : H < 65536 := by
    by_contra hcon
    rw [outerLoop_diverges_of_ge W H U B fuel (by omega) fuel 0 L (by norm_num)] at h
    cases h
  have hW16 : W < 65536 := by
    by_contra hcon
    cases fuel with
    | zero => simp [outerLoop] at h
    | succ fuel =>
      have h0 : (0 : Nat) ≠ H := by omega
      simp only [outerLoop, ne_eq, h0, not_false_eq_true, if_true,
        innerLoop_diverges_of_ge W H U B 0 (by omega) (fuel + 1) 0 L (by norm_num)] at h
      cases h
  have h0 : IsSampled W H U B (0 * W) [] := ⟨by simp, fun i hi => by omega⟩
  have := outerLoop_result W H U B fuel hW16 hH16 fuel 0 L [] res (Nat.zero_le _) h0
    (by simpa using h)
  exact ⟨hW16, hH16, this⟩

/-! ## Configuration (C12) -/

theorem corners_of_zero_zoom (centerX centerY : ℚ) :
    UpperCorner centerX centerY 0 = { X := centerX, Y := centerY } ∧
      BottomCorner centerX centerY 0 = { X := centerX, Y := centerY } := by
  constructor
  · simp [UpperCorner, RightX, TopY, Height]
  · simp [BottomCorner, LeftX, BottomY, Height]

/-- C12, as stated, fails: with `zoomLevel = 0` the viewport of `main` is degenerate
(both corners coincide), yet `MakeFrame` runs on the 640 by 360 frame and returns
230400 sampled points; no error precedes the sampling. -/
theorem degenerate_viewport_is_sampled :
    UpperCorner CenterX CenterY 0 = BottomCorner CenterX CenterY 0 ∧
      ∃ pts, MakeFrame 641 FRAME_W FRAME_H (UpperCorner CenterX CenterY 0)
          (BottomCorner CenterX CenterY 0) [] = some pts ∧ pts.length = 230400 := by
  refine ⟨by rw [(corners_of_zero_zoom _ _).1, (corners_of_zero_zoom _ _).2], ?_⟩
  obtain ⟨pts, hret, hlen, -⟩ :=
    MakeFrame_spec 641 FRAME_W FRAME_H (UpperCorner CenterX CenterY 0)
      (BottomCorner CenterX CenterY 0) [] (by norm_num [FRAME_W]) (by norm_num [FRAME_H])
      (by norm_num [FRAME_W]) (by norm_num [FRAME_H])
  exact ⟨pts, by simpa using hret, by rw [hlen]; rfl⟩

/-- C12, amended: the configuration is not checked.  For every viewport, degenerate
or not, and all frame dimensions from 0 to 65535, `MakeFrame` returns (given enough
fuel) with `W * H` sampled points appended, none for an empty grid; for the
degenerate viewport of `zoomLevel = 0` every one of them is the sample of the
single plane point `(centerX, centerY)`. -/
theorem configuration_unchecked (fuel W H : Nat) (U B : Vector2) (centerX centerY : ℚ)
    (L : List Point) (hW : W ≤ 65535) (hH : H ≤ 65535) (hfuel : W < fuel ∧ H < fuel) :
    (∃ pts, MakeFrame fuel W H U B L = some (L ++ pts) ∧ pts.length = W * H) ∧
      (∃ pts, MakeFrame fuel W H (UpperCorner centerX centerY 0)
          (BottomCorner centerX centerY 0) L = some (L ++ pts) ∧ pts.length = W * H ∧
        ∀ P ∈ pts, P = CalculatePoint centerX centerY) := by
  constructor
  · obtain ⟨pts, hret, hlen, -⟩ :=
      MakeFrame_spec fuel W H U B L (by omega) (by omega) hfuel.1 hfuel.2
    exact ⟨pts, hret, by rw [hlen, Nat.mul_comm]⟩
  · obtain ⟨pts, hret, hlen, hget⟩ :=
      MakeFrame_spec fuel W H (UpperCorner centerX centerY 0)
        (BottomCorner centerX centerY 0) L (by omega) (by omega) hfuel.1 hfuel.2
    refine ⟨pts, hret, by rw [hlen, Nat.mul_comm], fun P hP => ?_⟩
    obtain ⟨i, hi⟩ := List.mem_iff_getElem?.mp hP
    have hilt : i < H * W := by
      rw [← hlen]
      by_contra hcon
      rw [List.getElem?_eq_none (not_lt.mp hcon)] at hi
      cases hi
    have h := hget i hilt
    rw [hi] at h
    have hP2 : P = sampleAt W H (UpperCorner centerX centerY 0)
        (BottomCorner centerX centerY 0) (i % W) (i / W) := by
      simpa using h
    rw [hP2]
    simp [sampleAt, PointX, PointY, DeltaX, DeltaY, (corners_of_zero_zoom centerX centerY).1,
      (corners_of_zero_zoom centerX centerY).2]

/-- Witness of C12 (amended) on the frame of `main` with `zoomLevel = 0`. -/
theorem configuration_unchecked_witness :
    ∃ pts, MakeFrame 641 FRAME_W FRAME_H (UpperCorner CenterX CenterY 0)
        (BottomCorner CenterX CenterY 0) [] = some ([] ++ pts) ∧
      pts.length = FRAME_W * FRAME_H ∧ ∀ P ∈ pts, P = CalculatePoint CenterX CenterY :=
  (configuration_unchecked 641 FRAME_W FRAME_H (UpperCorner CenterX CenterY ZoomLevel)
    (BottomCorner CenterX CenterY ZoomLevel) CenterX CenterY []
    (by norm_num [FRAME_W]) (by norm_num [FRAME_H]) (by norm_num [FRAME_W, FRAME_H])).2

/-! ## Index safety (C13) -/

/-- Every entry of a sampled list is the sample of a pixel of the grid. -/
theorem IsSampled_mem (W H : Nat) (U B : Vector2) (pts : List Point) (hW : 0 < W)
    (hs : IsSampled W H U B (H * W) pts) (P : Point) (hP : P ∈ pts) :
    ∃ col row, col < W ∧ row < H ∧ P = sampleAt W H U B col row := by
  obtain ⟨hlen, hget⟩ := hs
  obtain ⟨i, hi⟩ := List.mem_iff_getElem?.mp hP
  have hilt : i < H * W := by
    rw [← hlen]
    by_contra hcon
    rw [List.getElem?_eq_none (not_lt.mp hcon)] at hi
    cases hi
  have h := hget i hilt
  rw [hi] at h
  exact ⟨i % W, i / W, Nat.mod_lt _ hW, Nat.div_lt_of_lt_mul (by rw [Nat.mul_comm]; exact hilt),
    by simpa using h⟩

/-- C13: with the reals as exact rationals, for every non-degenerate viewport and every
grid with `col < W` and `row < H` (so `W, H > 0`), the point that `MakeFrame`
produces for the pixel `(col, row)` yields in the assembly loop of `main`
non-negative `PixelX` and `PixelY` with `floor(PixelX) <= W - 1` and
`floor(PixelY) <= H - 1`, so the derived index `floor(PixelY) * W + floor(PixelX)`,
also as the `uint64_t` value `Index`, is below `W * H`; and every point of a list
that `MakeFrame` returns has its index below `W * H`: the out-of-bounds write is
unreachable. -/
theorem index_safety (W H : Nat) (U B : Vector2) (col row : Nat) (hx : U.X ≠ B.X)
    (hy : U.Y ≠ B.Y) (hcol : col < W) (hrow : row < H) :
    0 ≤ PixelX W U B (sampleAt W H U B col row) ∧
      0 ≤ PixelY H U B (sampleAt W H U B col row) ∧
      ⌊PixelX W U B (sampleAt W H U B col row)⌋ ≤ (W : ℤ) - 1 ∧
      ⌊PixelY H U B (sampleAt W H U B col row)⌋ ≤ (H : ℤ) - 1 ∧
      ⌊PixelY H U B (sampleAt W H U B col row)⌋ * (W : ℤ) +
          ⌊PixelX W U B (sampleAt W H U B col row)⌋ < (W : ℤ) * (H : ℤ) ∧
      Index W H U B (sampleAt W H U B col row) < W * H ∧
      (∀ (fuel : Nat) (pts : List Point), MakeFrame fuel W H U B [] = some pts →
        ∀ P ∈ pts, Index W H U B P < W * H) := by
  have hfx := floor_PixelX_sampleAt W H U B col row hx hcol
  have hfy := floor_PixelY_sampleAt W H U B col row hy hrow
  refine ⟨?_, ?_, ?_, ?_, ?_, Index_sampleAt_lt W H U B col row hx hy hcol hrow, ?_⟩
  · rw [PixelX_sampleAt W H U B col row hx (by omega)]
    positivity
  · rw [PixelY_sampleAt W H U B col row hy (by omega)]
    positivity
  · rw [hfx]; omega
  · rw [hfy]; omega
  · rw [hfx, hfy]
    have h1 : ((row - 1 : Nat) : ℤ) ≤ (H : ℤ) - 1 := by omega
    have h2 : ((col - 1 : Nat) : ℤ) < (W : ℤ) := by omega
    have h3 : (0 : ℤ) ≤ (W : ℤ) := by omega
    nlinarith
  · intro fuel pts hpts P hP
    obtain ⟨-, -, pts1, hres, hs⟩ := MakeFrame_result fuel W H U B [] pts (by omega) hpts
    have hres2 : pts = pts1 := by simpa using hres
    obtain ⟨c, r, hc, hr, hPe⟩ := IsSampled_mem W H U B pts1 (by omega) hs P (hres2 ▸ hP)
    rw [hPe]
    exact Index_sampleAt_lt W H U B c r hx hy hc hr

/-- Witness of C13 on the frame and the viewport of `main`, at the pixel `(1, 1)`. -/
theorem index_safety_witness :
    Index FRAME_W FRAME_H (UpperCorner CenterX CenterY ZoomLevel)
        (BottomCorner CenterX CenterY ZoomLevel)
        (sampleAt FRAME_W FRAME_H (UpperCorner CenterX CenterY ZoomLevel)
          (BottomCorner CenterX CenterY ZoomLevel) 1 1) < FRAME_W * FRAME_H :=
  (index_safety FRAME_W FRAME_H (UpperCorner CenterX CenterY ZoomLevel)
    (BottomCorner CenterX CenterY ZoomLevel) 1 1
    (by norm_num [UpperCorner, BottomCorner, RightX, LeftX, CenterX, ZoomLevel])
    (by norm_num [UpperCorner, BottomCorner, TopY, BottomY, Height, CenterY, ZoomLevel])
    (by norm_num [FRAME_W]) (by norm_num [FRAME_H])).2.2.2.2.2.1

/-! ## Final buffer contents (C14) -/

theorem mul_add_inj (W a b c d : Nat) (hb : b < W) (hd : d < W)
    (h : a * W + b = c * W + d) : a = c ∧ b = d := by
  have hW : 0 < W := by omega
  have h1 : (a * W + b) / W = a := by
    rw [Nat.add_comm, Nat.add_mul_div_right _ _ hW, Nat.div_eq_of_lt hb, Nat.zero_add]
  have h2 : (c * W + d) / W = c := by
    rw [Nat.add_comm, Nat.add_mul_div_right _ _ hW, Nat.div_eq_of_lt hd, Nat.zero_add]
  have hac : a = c := by rw [← h1, ← h2, h]
  subst hac
  exact ⟨rfl, by omega⟩

/-- Each entry of the list that `MakeFrame` returns, with its position. -/
theorem IsSampled_get (W H : Nat) (U B : Vector2) (pts : List Point) (hW : 0 < W)
    (hs : IsSampled W H U B (H * W) pts) (k : Nat) (Q : Point) (hk : pts[k]? = some Q) :
    k < H * W ∧ k % W < W ∧ k / W < H ∧ Q = sampleAt W H U B (k % W) (k / W) := by
  obtain ⟨hlen, hget⟩ := hs
  have hklt : k < H * W := by
    rw [← hlen]
    by_contra hcon
    rw [List.getElem?_eq_none (not_lt.mp hcon)] at hk
    cases hk
  have h := hget k hklt
  rw [hk] at h
  exact ⟨hklt, Nat.mod_lt _ hW, Nat.div_lt_of_lt_mul (by rw [Nat.mul_comm]; exact hklt),
    by simpa using h⟩

/-- C14: with the reals as exact rationals, for a non-degenerate viewport and
`W, H >= 2`, once `MakeFrame` has returned the list of samples, the sample taken at
pixel `(col, row)` is written to the slot `max(row - 1, 0) * W + max(col - 1, 0)`;
after the assembly loop the slot `(c, r)` with `c < W - 1` and `r < H - 1` holds the
colour of the sample taken at `(c + 1, r + 1)`, and every slot of the last column
or of the last row is never written and keeps its initial value `{0,0,0}`. -/
theorem final_buffer_contents (fuel W H : Nat) (U B : Vector2) (pts : List Point)
    (ImageData : Nat → RGB) (hx : U.X ≠ B.X) (hy : U.Y ≠ B.Y) (hW : 2 ≤ W) (hH : 2 ≤ H)
    (hinit : ∀ i, i < W * H → ImageData i = { R := 0, G := 0, B := 0 })
    (hpts : MakeFrame fuel W H U B [] = some pts) :
    (∀ col row, col < W → row < H →
      ((Index W H U B (sampleAt W H U B col row) : Nat) : ℤ) =
        max ((row : ℤ) - 1) 0 * (W : ℤ) + max ((col : ℤ) - 1) 0) ∧
      (∀ c r, c < W - 1 → r < H - 1 →
        assemble W H U B pts ImageData (r * W + c) = (sampleAt W H U B (c + 1) (r + 1)).Color) ∧
      (∀ c r, c < W → r < H → (c = W - 1 ∨ r = H - 1) →
        (∀ (k : Nat) (Q : Point), pts[k]? = some Q → Index W H U B Q ≠ r * W + c) ∧
        assemble W H U B pts ImageData (r * W + c) = { R := 0, G := 0, B := 0 }) := by
  obtain ⟨hW16, hH16, pts1, hres, hs⟩ := MakeFrame_result fuel W H U B [] pts (by omega) hpts
  have hres2 : pts = pts1 := by simpa using hres
  subst hres2
  have hidx : ∀ col row, col < W → row < H →
      Index W H U B (sampleAt W H U B col row) = (row - 1) * W + (col - 1) :=
    fun col row hc hr => Index_sampleAt_small W H U B col row hx hy hc hr hW16 hH16
  refine ⟨fun col row hc hr => ?_, fun c r hc hr => ?_, fun c r hc hr hlast => ?_⟩
  · rw [hidx col row hc hr]
    have e1 : max ((row : ℤ) - 1) 0 = ((row - 1 : Nat) : ℤ) := by omega
    have e2 : max ((col : ℤ) - 1) 0 = ((col - 1 : Nat) : ℤ) := by omega
    rw [e1, e2]
    push_cast
    ring
  · -- the last write to the slot is the sample of (c + 1, r + 1)
    have hc1 : c + 1 < W := by omega
    have hr1 : r + 1 < H := by omega
    have hjlt : (r + 1) * W + (c + 1) < H * W := by
      calc (r + 1) * W + (c + 1) < (r + 1) * W + W := by omega
        _ = (r + 1 + 1) * W := by ring
        _ ≤ H * W := Nat.mul_le_mul_right W hr1
    have hmod : ((r + 1) * W + (c + 1)) % W = c + 1 := by
      rw [Nat.add_comm, Nat.add_mul_mod_self_right, Nat.mod_eq_of_lt hc1]
    have hdiv : ((r + 1) * W + (c + 1)) / W = r + 1 := by
      rw [Nat.add_comm, Nat.add_mul_div_right _ _ (by omega), Nat.div_eq_of_lt hc1,
        Nat.zero_add]
    have hj : pts[(r + 1) * W + (c + 1)]? = some (sampleAt W H U B (c + 1) (r + 1)) := by
      have := hs.2 _ hjlt
      rw [hmod, hdiv] at this
      exact this
    refine assemble_of_last_write W H U B pts ImageData (r * W + c) _ _ hj ?_ ?_
    · rw [hidx _ _ hc1 hr1]; simp
    · intro k Q hjk hk hQ
      obtain ⟨hklt, hkm, hkd, hQe⟩ := IsSampled_get W H U B pts (by omega) hs k Q hk
      rw [hQe, hidx _ _ hkm hkd] at hQ
      obtain ⟨ha, hb⟩ := mul_add_inj W (k / W - 1) (k % W - 1) r c (by omega) (by omega) hQ
      have hk1 : k / W ≤ r + 1 := by omega
      have hk2 : k % W ≤ c + 1 := by omega
      have hk3 : k = k / W * W + k % W := by
        rw [Nat.mul_comm]; exact (Nat.div_add_mod k W).symm
      have hk4 : k / W * W ≤ (r + 1) * W := Nat.mul_le_mul_right W hk1
      omega
  · -- no sample has a derived index in the last column or the last row
    have hnone : ∀ (k : Nat) (Q : Point), pts[k]? = some Q → Index W H U B Q ≠ r * W + c := by
      intro k Q hk hQ
      obtain ⟨hklt, hkm, hkd, hQe⟩ := IsSampled_get W H U B pts (by omega) hs k Q hk
      rw [hQe, hidx _ _ hkm hkd] at hQ
      obtain ⟨ha, hb⟩ := mul_add_inj W (k / W - 1) (k % W - 1) r c (by omega) hc hQ
      omega
    refine ⟨hnone, ?_⟩
    rw [assemble_of_no_write W H U B pts ImageData _ hnone]
    apply hinit
    have h1 : r * W ≤ (H - 1) * W := Nat.mul_le_mul_right W (by omega)
    have h2 : (H - 1) * W + W = W * H := by
      obtain ⟨h, rfl⟩ : ∃ h, H = h + 1 := ⟨H - 1, by omega⟩
      simp only [Nat.add_sub_cancel]; ring
    omega

/-- Witness of C14 on the frame and the viewport of `main`: the slot `(0, 0)` ends up
with the colour of the sample taken at `(1, 1)`. -/
theorem final_buffer_contents_witness :
    ∃ pts, MakeFrame 641 FRAME_W FRAME_H (UpperCorner CenterX CenterY ZoomLevel)
        (BottomCorner CenterX CenterY ZoomLevel) [] = some pts ∧
      assemble FRAME_W FRAME_H (UpperCorner CenterX CenterY ZoomLevel)
          (BottomCorner CenterX CenterY ZoomLevel) pts newImageData (0 * FRAME_W + 0) =
        (sampleAt FRAME_W FRAME_H (UpperCorner CenterX CenterY ZoomLevel)
          (BottomCorner CenterX CenterY ZoomLevel) (0 + 1) (0 + 1)).Color := by
  obtain ⟨pts, hret, -⟩ :=
    MakeFrame_spec 641 FRAME_W FRAME_H (UpperCorner CenterX CenterY ZoomLevel)
      (BottomCorner CenterX CenterY ZoomLevel) [] (by norm_num [FRAME_W])
      (by norm_num [FRAME_H]) (by norm_num [FRAME_W]) (by norm_num [FRAME_H])
  have hret2 : MakeFrame 641 FRAME_W FRAME_H (UpperCorner CenterX CenterY ZoomLevel)
      (BottomCorner CenterX CenterY ZoomLevel) [] = some pts := by simpa using hret
  exact ⟨pts, hret2,
    (final_buffer_contents 641 FRAME_W FRAME_H (UpperCorner CenterX CenterY ZoomLevel)
      (BottomCorner CenterX CenterY ZoomLevel) pts newImageData
      (by norm_num [UpperCorner, BottomCorner, RightX, LeftX, CenterX, ZoomLevel])
      (by norm_num [UpperCorner, BottomCorner, TopY, BottomY, Height, CenterY, ZoomLevel])
      (by norm_num [FRAME_W]) (by norm_num [FRAME_H]) (fun _ _ => rfl) hret2).2.1 0 0
      (by norm_num [FRAME_W]) (by norm_num [FRAME_H])⟩

/-! ## Points outside the escape square (C15) -/

/-- The fast path lies well inside the escape square: a point of the cardioid or of
the period-2 disc has both coordinates of absolute value at most 2. -/
theorem abs_le_two_of_shortcut (x y : ℚ) (hs : shortcut x y) : |x| ≤ 2 ∧ |y| ≤ 2 := by
  unfold shortcut at hs
  simp only [QUARTER, SIXTEENTH] at hs
  rcases hs with hb | hc
  · have h1 : (x + 1) * (x + 1) ≤ 1 / 16 := by nlinarith [mul_self_nonneg y]
    have h2 : y * y ≤ 1 / 16 := by nlinarith [mul_self_nonneg (x + 1)]
    constructor
    · rw [abs_le]; constructor <;> nlinarith
    · rw [abs_le]; constructor <;> nlinarith
  · have hcR : (((x : ℝ) - 1 / 4) * ((x : ℝ) - 1 / 4) + (y : ℝ) * (y : ℝ)) *
        ((((x : ℝ) - 1 / 4) * ((x : ℝ) - 1 / 4) + (y : ℝ) * (y : ℝ)) + ((x : ℝ) - 1 / 4))
        ≤ (y : ℝ) * (y : ℝ) * (1 / 4) := by
      have h1 := (Rat.cast_le (K := ℝ)).mpr hc
      push_cast at h1
      linarith
    obtain ⟨μ, hμ, hcμ⟩ := exists_multiplier_of_cardioid (x : ℝ) (y : ℝ) (by
      calc (((x : ℝ) - 1 / 4) ^ 2 + (y : ℝ) ^ 2) * ((((x : ℝ) - 1 / 4) ^ 2 + (y : ℝ) ^ 2) + ((x : ℝ) - 1 / 4))
          = (((x : ℝ) - 1 / 4) * ((x : ℝ) - 1 / 4) + (y : ℝ) * (y : ℝ)) *
            ((((x : ℝ) - 1 / 4) * ((x : ℝ) - 1 / 4) + (y : ℝ) * (y : ℝ)) + ((x : ℝ) - 1 / 4)) := by ring
        _ ≤ (y : ℝ) * (y : ℝ) * (1 / 4) := hcR
        _ = (1 / 4) * (y : ℝ) ^ 2 := by ring)
    have hμ0 : 0 ≤ ‖μ‖ := norm_nonneg μ
    have hn : ‖(⟨(x : ℝ), (y : ℝ)⟩ : ℂ)‖ ≤ 2 := by
      rw [hcμ]
      calc ‖μ / 2 - μ ^ 2 / 4‖ ≤ ‖μ / 2‖ + ‖μ ^ 2 / 4‖ := norm_sub_le _ _
        _ = ‖μ‖ / 2 + ‖μ‖ ^ 2 / 4 := by
          rw [norm_div, norm_div, norm_pow]; simp
        _ ≤ 2 := by nlinarith
    have hre : |(x : ℝ)| ≤ 2 :=
      le_trans (Complex.abs_re_le_abs (⟨(x : ℝ), (y : ℝ)⟩ : ℂ)) hn
    have him : |(y : ℝ)| ≤ 2 :=
      le_trans (Complex.abs_im_le_abs (⟨(x : ℝ), (y : ℝ)⟩ : ℂ)) hn
    constructor
    · exact_mod_cast hre
    · exact_mod_cast him

/-- C15: for every `c = (x, y)` with `|x| > 2` or `|y| > 2`, neither the cardioid nor
the bulb inequality holds, and `CalculatePoint` reports an escape at iteration 0, so
the sample is coloured `Colorize(0) = {0,0,0}`. -/
theorem outside_square_escapes_at_zero (x y : ℚ) (h : |x| > 2 ∨ |y| > 2) :
    ¬ (((x - 1 / 4) ^ 2 + y ^ 2) * (((x - 1 / 4) ^ 2 + y ^ 2) + (x - 1 / 4)) ≤ (1 / 4) * y ^ 2) ∧
      ¬ ((x + 1) ^ 2 + y ^ 2 ≤ 1 / 16) ∧
      classify x y = EscapeResult.Escaped 0 ∧
      Colorize { re := x, im := y } 0 = { R := 0, G := 0, B := 0 } ∧
      CalculatePoint x y = { X := x, Y := y, Color := { R := 0, G := 0, B := 0 } } := by
  have hns : ¬ shortcut x y := by
    intro hs
    have := abs_le_two_of_shortcut x y hs
    rcases h with h | h
    · exact absurd this.1 (not_le.mpr h)
    · exact absurd this.2 (not_le.mpr h)
  have hcl : classify x y = EscapeResult.Escaped 0 := by
    rw [classify_escaped_iff x y 0 hns]
    refine ⟨by norm_num [MAX_ITERS], ?_, fun j hj => absurd hj (Nat.not_lt_zero j)⟩
    simp only [escapes, orbit, ncomplex.mul, ncomplex.add, ESCAPE_BOUNDARY]
    simpa using h
  refine ⟨fun hc => hns ?_, fun hb => hns ?_, hcl, Colorize_zero _, ?_⟩
  · unfold shortcut
    simp only [QUARTER, SIXTEENTH]
    right
    calc ((x - 1 / 4) * (x - 1 / 4) + y * y) * ((x - 1 / 4) * (x - 1 / 4) + y * y + (x - 1 / 4))
        = ((x - 1 / 4) ^ 2 + y ^ 2) * (((x - 1 / 4) ^ 2 + y ^ 2) + (x - 1 / 4)) := by ring
      _ ≤ (1 / 4) * y ^ 2 := hc
      _ = y * y * (1 / 4) := by ring
  · unfold shortcut
    simp only [QUARTER, SIXTEENTH]
    left
    calc (x + 1) * (x + 1) + y * y = (x + 1) ^ 2 + y ^ 2 := by ring
      _ ≤ 1 / 16 := hb
  · rw [CalculatePoint_eq, hcl]
    simp only [colorOf, Colorize_zero]

/-- Witness of C15 at `c = 3 + 0i`. -/
theorem outside_square_escapes_at_zero_witness :
    classify 3 0 = EscapeResult.Escaped 0 ∧
      CalculatePoint 3 0 = { X := 3, Y := 0, Color := { R := 0, G := 0, B := 0 } } :=
  ⟨(outside_square_escapes_at_zero 3 0 (by norm_num)).2.2.1,
    (outside_square_escapes_at_zero 3 0 (by norm_num)).2.2.2.2⟩

/-! ## Conjugation symmetry (C16) -/

theorem shortcut_neg (x y : ℚ) : shortcut x (-y) ↔ shortcut x y := by
  unfold shortcut
  simp only [neg_mul_neg]

theorem orbit_conj (x y : ℚ) (n : Nat) :
    (orbit { re := x, im := -y } n).re = (orbit { re := x, im := y } n).re ∧
      (orbit { re := x, im := -y } n).im = -(orbit { re := x, im := y } n).im := by
  induction n with
  | zero => simp [orbit]
  | succ n ih =>
    obtain ⟨h1, h2⟩ := ih
    simp only [orbit, ncomplex.mul, ncomplex.add, h1, h2]
    constructor <;> ring

theorem escapes_orbit_conj (x y : ℚ) (n : Nat) :
    escapes (orbit { re := x, im := -y } n) ↔ escapes (orbit { re := x, im := y } n) := by
  obtain ⟨h1, h2⟩ := orbit_conj x y n
  unfold escapes
  rw [h1, h2, abs_neg]

theorem classify_conj (x y : ℚ) : classify x (-y) = classify x y := by
  by_cases hs : shortcut x y
  · rw [classify_of_shortcut x y hs, classify_of_shortcut x (-y) ((shortcut_neg x y).mpr hs)]
  · have hs2 : ¬ shortcut x (-y) := fun h => hs ((shortcut_neg x y).mp h)
    cases hc : classify x y with
    | Bounded =>
      rw [classify_bounded_iff x (-y) hs2]
      intro j hj
      rw [escapes_orbit_conj]
      exact (classify_bounded_iff x y hs).mp hc j hj
    | Escaped k =>
      rw [classify_escaped_iff x (-y) k hs2]
      obtain ⟨h1, h2, h3⟩ := (classify_escaped_iff x y k hs).mp hc
      exact ⟨h1, (escapes_orbit_conj x y _).mpr h2,
        fun j hj hcon => h3 j hj ((escapes_orbit_conj x y _).mp hcon)⟩

theorem colorOf_const (C D : ncomplex) (r : EscapeResult) : colorOf C r = colorOf D r := by
  cases r with
  | Bounded => rfl
  | Escaped k => simp only [colorOf, Colorize_eq]

/-- C16: for every `x` and `y`, `CalculatePoint(x, -y)` yields the same classification
and the same colour as `CalculatePoint(x, y)` (same shortcut outcome, same escape
iteration or both `Bounded`), and the returned points differ only in the sign of
the stored `Y` coordinate. -/
theorem conjugation_symmetry (x y : ℚ) :
    (shortcut x (-y) ↔ shortcut x y) ∧
      classify x (-y) = classify x y ∧
      (CalculatePoint x (-y)).Color = (CalculatePoint x y).Color ∧
      (CalculatePoint x (-y)).X = (CalculatePoint x y).X ∧
      (CalculatePoint x (-y)).Y = -(CalculatePoint x y).Y ∧
      CalculatePoint x (-y) =
        { X := (CalculatePoint x y).X, Y := -(CalculatePoint x y).Y,
          Color := (CalculatePoint x y).Color } := by
  have hcol : (CalculatePoint x (-y)).Color = (CalculatePoint x y).Color := by
    rw [CalculatePoint_eq, CalculatePoint_eq, classify_conj]
    exact colorOf_const _ _ _
  refine ⟨shortcut_neg x y, classify_conj x y, hcol, ?_, ?_, ?_⟩
  · rw [CalculatePoint_X, CalculatePoint_X]
  · rw [CalculatePoint_Y, CalculatePoint_Y]
  · rw [← hcol, CalculatePoint_X, CalculatePoint_Y]
    rw [CalculatePoint_eq]

/-! ## Colour scale (C17) -/

theorem Colorize_blue (C : ncomplex) (n : Nat) : (Colorize C n).B = (255 * min n 64) / 64 := by
  rw [Colorize_eq]

/-- C17: the blue value returned by `Colorize` is monotonically non-decreasing in the
iteration count `n`, equals 255 for every `n >= 64`, and equals 0 if and only if
`n = 0`; hence among escaped points only those escaping at iteration 0 are
coloured black like `Bounded` points. -/
theorem colour_scale_shape (C : ncomplex) :
    (∀ m n : Nat, m ≤ n → (Colorize C m).B ≤ (Colorize C n).B) ∧
      (∀ n : Nat, 64 ≤ n → (Colorize C n).B = 255) ∧
      (∀ n : Nat, (Colorize C n).B = 0 ↔ n = 0) ∧
      (∀ (x y : ℚ) (k : Nat), classify x y = EscapeResult.Escaped k →
        ((CalculatePoint x y).Color = { R := 0, G := 0, B := 0 } ↔ k = 0)) := by
  have hzero : ∀ n : Nat, (255 * min n 64) / 64 = 0 ↔ n = 0 := by
    intro n
    rcases Nat.lt_or_ge n 64 with h | h
    · rw [min_eq_left (le_of_lt h)]; omega
    · rw [min_eq_right h]; omega
  refine ⟨fun m n hmn => ?_, fun n hn => ?_, fun n => ?_, fun x y k hk => ?_⟩
  · rw [Colorize_blue, Colorize_blue]
    exact Nat.div_le_div_right (Nat.mul_le_mul_left 255 (min_le_min_right 64 hmn))
  · rw [Colorize_blue, min_eq_right hn]
  · rw [Colorize_blue]; exact hzero n
  · rw [CalculatePoint_eq, hk]
    simp only [colorOf, Colorize_eq, RGB.mk.injEq, true_and]
    exact hzero k

/-- Witness of C17 at `c = 2 + 2i`, which escapes at iteration 1 and is not black. -/
theorem colour_scale_shape_witness :
    classify 2 2 = EscapeResult.Escaped 1 ∧
      ((CalculatePoint 2 2).Color = { R := 0, G := 0, B := 0 } ↔ 1 = 0) :=
  ⟨classify_two_two,
    (colour_scale_shape { re := 2, im := 2 }).2.2.2 2 2 1 classify_two_two⟩

end NFractallizer
